import Mathlib

/-!
# Verification development for the `Projects` repository

Two scripts of the repository are modelled here:

* `wordcount-webapplication/public/app.js` : the text-statistics widget
  (`countWords`, `countSentences`, `countParagraphs`, `getAverageWordLength`,
  `updateStats`, and the debounced `input` listener);
* `VASTRA-main/VASTRA-main/addtocartfemale.js` : the in-memory shopping cart
  (`addtocart`, `delElement`, `displaycart`).

A JavaScript string is modelled as the list of its UTF-16 code units, so that
`text.length` is `List.length`.  Regular expressions without the `u` flag see
that list directly; the one regular expression with the `u` flag sees the list
of code points decoded from it (`codePoints`).
-/

namespace WordCount

/-! ## Strings -/

/-- A JavaScript string: the list of its UTF-16 code units. -/
abbrev JSString := List Nat

/-- UTF-16 encoding of one Unicode scalar value. -/
def encodeUnit (c : Nat) : List Nat :=
  if c < 0x10000 then [c]
  else [0xD800 + (c - 0x10000) / 0x400, 0xDC00 + (c - 0x10000) % 0x400]

/-- The JavaScript string denoted by a Lean string literal. -/
def js (s : String) : JSString :=
  s.toList.flatMap (fun c => encodeUnit c.toNat)

/-- Lead (high) surrogate code unit. -/
def isLead (u : Nat) : Bool := decide (0xD800 ≤ u) && decide (u ≤ 0xDBFF)

/-- Trail (low) surrogate code unit. -/
def isTrail (u : Nat) : Bool := decide (0xDC00 ≤ u) && decide (u ≤ 0xDFFF)

/-- The code points a `u`-flagged regular expression sees: a lead surrogate
followed by a trail surrogate is one code point, every other code unit stands
for itself. -/
def codePoints : JSString → List Nat
  | [] => []
  | [a] => [a]
  | a :: b :: rest =>
    if isLead a && isTrail b then
      (0x10000 + (a - 0xD800) * 0x400 + (b - 0xDC00)) :: codePoints rest
    else a :: codePoints (b :: rest)

/-- The class `\s` of ECMAScript (WhiteSpace and LineTerminator code points);
`String.prototype.trim` strips exactly the same set. -/
def isWhiteSpace (c : Nat) : Bool :=
  c == 0x09 || c == 0x0A || c == 0x0B || c == 0x0C || c == 0x0D || c == 0x20 ||
  c == 0xA0 || c == 0x1680 || (decide (0x2000 ≤ c) && decide (c ≤ 0x200A)) ||
  c == 0x2028 || c == 0x2029 || c == 0x202F || c == 0x205F || c == 0x3000 ||
  c == 0xFEFF

/-- The class `[.!?]`. -/
def isTerminator (c : Nat) : Bool := c == 0x2E || c == 0x21 || c == 0x3F

/-- The character `\n`. -/
def isNewline (c : Nat) : Bool := c == 0x0A

/-- The class `['-]` joined to a letter class `L`: the class `[\p{L}'-]`. -/
def isWordCont (L : Nat → Bool) (c : Nat) : Bool := L c || c == 0x27 || c == 0x2D

/-- The letters of ASCII. -/
def asciiLetter (c : Nat) : Bool :=
  (decide (0x41 ≤ c) && decide (c ≤ 0x5A)) || (decide (0x61 ≤ c) && decide (c ≤ 0x7A))

/-- A letter class agrees with Unicode on the ASCII range. -/
def AsciiFaithful (L : Nat → Bool) : Prop := ∀ c, c < 128 → L c = asciiLetter c

/-- No letter is a white-space character (in Unicode the letters have general
category `L*`, the members of `\s` have `Zs`, `Zl`, `Zp`, `Cc` or `Cf`). -/
def LettersNotSpace (L : Nat → Bool) : Prop := ∀ c, L c = true → isWhiteSpace c = false

/-! ## The regular expressions of the script

Every regular expression of `app.js` is a sequence of one or more single
character classes followed by at most one greedy starred class with nothing
after it (`x+` is `x x*`), so a match never backtracks and is never empty. -/

/-- A pattern `first more₁ … moreₙ star*`. -/
structure Pattern where
  first : Nat → Bool
  more : List (Nat → Bool)
  star : Nat → Bool

/-- Matches a sequence of single classes against a prefix of the input. -/
def matchSeq : List (Nat → Bool) → List Nat → Option (List Nat × List Nat)
  | [], s => some ([], s)
  | _ :: _, [] => none
  | c :: cs, x :: xs =>
    if c x then
      match matchSeq cs xs with
      | some (m, r) => some (x :: m, r)
      | none => none
    else none

/-- Anchored match at the head of the input: the matched text and the rest. -/
def matchAt (p : Pattern) (s : List Nat) : Option (List Nat × List Nat) :=
  match matchSeq (p.first :: p.more) s with
  | some (m, r) => some (m ++ r.takeWhile p.star, r.dropWhile p.star)
  | none => none

/-- The scanning loop of a global (`g`) regular expression: try to match at
the current position; after a match resume at its end, otherwise advance by
one character.  `fuel` bounds the number of iterations. -/
def matchAllAux (p : Pattern) : Nat → List Nat → List (List Nat)
  | 0, _ => []
  | _ + 1, [] => []
  | fuel + 1, x :: xs =>
    match matchAt p (x :: xs) with
    | some (m, r) => m :: matchAllAux p fuel r
    | none => matchAllAux p fuel xs

/-- All matches, left to right; every iteration consumes a character, so the
length of the input is enough fuel. -/
def matchAll (p : Pattern) (s : List Nat) : List (List Nat) :=
  matchAllAux p s.length s

/-- The value of `s.match(/p/g)`: the array of matches, or `null` when there
is none. -/
def matchGlobal (p : Pattern) (s : List Nat) : Option (List (List Nat)) :=
  let ms := matchAll p s
  if ms.isEmpty then none else some ms

/-- Puts a character in front of the first fragment. -/
def consHead (c : Nat) : List (List Nat) → List (List Nat)
  | [] => [[c]]
  | f :: fs => (c :: f) :: fs

/-- The scanning loop of `s.split(/p/)`: a separator match closes the current
fragment and scanning resumes after it; any other character joins the current
fragment. -/
def splitAux (p : Pattern) : Nat → List Nat → List (List Nat)
  | 0, _ => [[]]
  | _ + 1, [] => [[]]
  | fuel + 1, x :: xs =>
    match matchAt p (x :: xs) with
    | some (_, r) => [] :: splitAux p fuel r
    | none => consHead x (splitAux p fuel xs)

/-- The value of `s.split(/p/)`. -/
def splitRegex (p : Pattern) (s : List Nat) : List (List Nat) :=
  splitAux p s.length s

/-- The scanning loop of `s.replace(/p/g, '')`. -/
def removeAllAux (p : Pattern) : Nat → List Nat → List Nat
  | 0, _ => []
  | _ + 1, [] => []
  | fuel + 1, x :: xs =>
    match matchAt p (x :: xs) with
    | some (_, r) => removeAllAux p fuel r
    | none => x :: removeAllAux p fuel xs

/-- The value of `s.replace(/p/g, '')`. -/
def removeAll (p : Pattern) (s : List Nat) : List Nat :=
  removeAllAux p s.length s

/-- The value of `s.trim()`. -/
def trim (s : JSString) : JSString :=
  ((s.dropWhile isWhiteSpace).reverse.dropWhile isWhiteSpace).reverse

/-- `.filter(Boolean)` on an array of strings keeps the non-empty ones. -/
def filterBoolean (xs : List (List Nat)) : List (List Nat) :=
  xs.filter (fun x => !x.isEmpty)

/-- The pattern `\p{L}[\p{L}'-]*` for a letter class `L`. -/
def wordPattern (L : Nat → Bool) : Pattern := ⟨L, [], isWordCont L⟩

/-- The pattern `[.!?]+`. -/
def terminatorPattern : Pattern := ⟨isTerminator, [], isTerminator⟩

/-- The pattern `\n\n+`. -/
def blankLinePattern : Pattern := ⟨isNewline, [isNewline], isNewline⟩

/-- The pattern `\s+`. -/
def spaceRunPattern : Pattern := ⟨isWhiteSpace, [], isWhiteSpace⟩

/-- The pattern `\s`. -/
def spacePattern : Pattern := ⟨isWhiteSpace, [], fun _ => false⟩

/-! ## The counting functions of `app.js` -/

/-- The function `countWords`.  The argument `engine` is the Unicode letter
class `\p{L}` of the regular-expression engine, or `none` for an engine on
which the Unicode pattern throws, which sends the function to its `catch`
branch. -/
def countWords (engine : Option (Nat → Bool)) (text : JSString) : Nat :=
  if text.isEmpty then 0
  else
    match engine with
    | some L =>
      match matchGlobal (wordPattern L) (codePoints text) with
      | some ms => ms.length
      | none => 0
    | none => (filterBoolean (splitRegex spaceRunPattern (trim text))).length

/-- The function `countSentences`. -/
def countSentences (text : JSString) : Nat :=
  if text.isEmpty then 0
  else
    match matchGlobal terminatorPattern text with
    | some ms => ms.length
    | none => 0

/-- The function `countParagraphs`. -/
def countParagraphs (text : JSString) : Nat :=
  if text.isEmpty then 0
  else (filterBoolean (splitRegex blankLinePattern (trim text))).length

/-! ## Specification-side descriptions used in the refinement statements -/

/-- Follows the specification's words: position `i` of the code-point list is
reachable from an earlier letter through an unbroken run: some position
`j < i` holds a letter and every position strictly between `j` and `i` holds a
letter, an apostrophe or a hyphen. -/
def reachableFromEarlierLetter (L : Nat → Bool) (cps : List Nat) (i : Nat) : Bool :=
  (List.range i).any fun j =>
    L (cps.getD j 0) && (List.range i).all fun k => decide (k ≤ j) || isWordCont L (cps.getD k 0)

/-- Follows the specification's words: the letter positions that are not
reachable from an earlier letter. -/
def wordStartPositions (L : Nat → Bool) (cps : List Nat) : List Nat :=
  (List.range cps.length).filter fun i =>
    L (cps.getD i 0) && !reachableFromEarlierLetter L cps i

/-- The decomposition of a text into its maximal runs with respect to a class
`p`: consecutive characters stay together exactly when both are in the class
or both are outside it. -/
def maximalRuns (p : Nat → Bool) : List Nat → List (List Nat)
  | [] => []
  | c :: cs =>
    match maximalRuns p cs with
    | (d :: r) :: rs => if p c == p d then (c :: d :: r) :: rs else [c] :: (d :: r) :: rs
    | rs => [c] :: rs

/-- Follows the specification's words: the maximal runs of one or more
characters drawn from the class `p`. -/
def runsOf (p : Nat → Bool) (s : List Nat) : List (List Nat) :=
  (maximalRuns p s).filter fun r => r.all p

/-- Proof device: the number of word starts seen by a left-to-right pass that
remembers whether an unbroken run containing a letter reaches the current
position. -/
def startsFrom (L : Nat → Bool) : Bool → List Nat → Nat
  | _, [] => 0
  | r, c :: cs =>
    (if L c && !r then 1 else 0) + startsFrom L (L c || (r && isWordCont L c)) cs


/-- The declarative reading of "the non-overlapping, left-to-right, greedy
matches of `\p{L}[\p{L}'-]*`": the text is a gap without letters, then a match
(a letter and a run of class characters that the next character does not
extend), then the same again. -/
inductive GreedyWordMatches (L : Nat → Bool) : List Nat → List (List Nat) → Prop
  | done (gap : List Nat) (hgap : ∀ c ∈ gap, L c = false) : GreedyWordMatches L gap []
  | step (gap : List Nat) (c : Nat) (run rest : List Nat) (ms : List (List Nat))
      (hgap : ∀ d ∈ gap, L d = false) (hc : L c = true)
      (hrun : ∀ d ∈ run, isWordCont L d = true)
      (hmax : ∀ d, rest.head? = some d → isWordCont L d = false)
      (hrest : GreedyWordMatches L rest ms) :
      GreedyWordMatches L (gap ++ c :: run ++ rest) ((c :: run) :: ms)

/-- Follows the specification's words: a separator is a maximal run made of
two or more newline characters. -/
def isBlankRun (r : List Nat) : Bool := r.all isNewline && decide (2 ≤ r.length)

/-- Cuts a list of runs at the separators: the runs between two separators
are glued into one fragment. -/
def cutAtRuns (sep : List Nat → Bool) : List (List Nat) → List (List Nat)
  | [] => [[]]
  | r :: rs =>
    if sep r then [] :: cutAtRuns sep rs
    else
      match cutAtRuns sep rs with
      | f :: fs => (r ++ f) :: fs
      | [] => [r]

/-- Follows the specification's words: trim the text, split the result on
every maximal run of two or more consecutive newlines. -/
def paragraphFragments (text : JSString) : List (List Nat) :=
  cutAtRuns isBlankRun (maximalRuns isNewline (trim text))

/-! ## Numbers: the quotient of two integers and `toFixed(1)`

JavaScript numbers are binary64 values.  A string length and a word count are
integers below `2 ^ 53`, hence exact; their quotient is the exact quotient
rounded to 53 significant bits, ties to even.  The quotient is kept as a pair
`mant / 2 ^ shift`, so no floating-point type is needed. -/

/-- The integer nearest to `num / den`, ties to the even one (`0 < den`). -/
def roundHalfEven (num den : Nat) : Nat :=
  let q := num / den
  let r := num % den
  if 2 * r < den then q
  else if den < 2 * r then q + 1
  else if q % 2 = 0 then q
  else q + 1

/-- Search for the least `s` with `2 ^ 52 ≤ a * 2 ^ s / b`, starting at `s`. -/
def normShiftAux (a b : Nat) : Nat → Nat → Nat
  | 0, s => s
  | fuel + 1, s => if 2 ^ 52 * b ≤ a * 2 ^ s then s else normShiftAux a b fuel (s + 1)

/-- The scaling that gives the quotient `a / b` a 53-bit significand: the
least `s` with `2 ^ 52 ≤ a * 2 ^ s / b` (for `1 ≤ a < 2 ^ 53` and `1 ≤ b`;
`s = 52 + b` always satisfies the inequality, which bounds the search). -/
def normShift (a b : Nat) : Nat := normShiftAux a b (52 + b) 0

/-- A non-negative binary64 value `mant / 2 ^ shift`. -/
structure Double where
  mant : Nat
  shift : Nat
deriving DecidableEq

/-- The binary64 value of `a / b` for integers `a < 2 ^ 53` and `1 ≤ b`. -/
def divDouble (a b : Nat) : Double :=
  let s := normShift a b
  ⟨roundHalfEven (a * 2 ^ s) b, s⟩

/-- The integer `n` chosen by `x.toFixed(1)`: `n / 10` is as close to `x` as
possible and the larger `n` is taken when two are equally close, that is
`n = ⌊10 x + 1/2⌋`. -/
def toFixedTenths (x : Double) : Nat :=
  (20 * x.mant + 2 ^ x.shift) / 2 ^ (x.shift + 1)

/-- The digits `toFixed(1)` prints for `n` tenths: the integer part, a point
and one fractional digit. -/
def renderTenths (n : Nat) : String :=
  toString (n / 10) ++ "." ++ toString (n % 10)

/-- The value of `x.toFixed(1)` (for `x < 10 ^ 21`). -/
def toFixed1 (x : Double) : String := renderTenths (toFixedTenths x)

/-- The values `getAverageWordLength` returns: the number `0` or a string. -/
inductive JSValue where
  | number (n : Nat)
  | string (s : String)
deriving DecidableEq

/-- The function `getAverageWordLength`. -/
def getAverageWordLength (text : JSString) (wordCount : Nat) : JSValue :=
  if wordCount = 0 then JSValue.number 0
  else
    let cleanText := removeAll spaceRunPattern text
    JSValue.string (toFixed1 (divDouble cleanText.length wordCount))

/-- Follows the specification's words: `n / 10` is the quotient `q` rounded to
one decimal place, that is, no number with one fractional digit is nearer to
`q` (the specification names no rule for ties). -/
def IsRoundedToOneDecimal (n : Nat) (q : ℚ) : Prop := |(n : ℚ) / 10 - q| ≤ 1 / 20

/-! ## `updateStats` -/

/-- The values `updateStats` hands to the six statistics elements. -/
structure Snapshot where
  wordCount : Nat
  charCount : Nat
  spaceCount : Nat
  sentenceCount : Nat
  paragraphCount : Nat
  averageWordLength : JSValue
deriving DecidableEq

/-- The function `updateStats`, as a function of the content of the text
area (`textarea.value || ''` is the content itself). -/
def updateStats (engine : Option (Nat → Bool)) (text : JSString) : Snapshot :=
  let words := countWords engine text
  let chars := text.length
  let spaces :=
    match matchGlobal spacePattern text with
    | some ms => ms.length
    | none => ([] : List (List Nat)).length
  let sentences := countSentences text
  let paragraphs := countParagraphs text
  let avgLength := getAverageWordLength text words
  ⟨words, chars, spaces, sentences, paragraphs, avgLength⟩

/-! ## The widget: listeners and the debounce timer -/

/-- The quiet interval of the debounce. -/
def quietInterval : Nat := 150

/-- The state of the page: the text area, the variable `timer`, the browser's
table of scheduled debounce callbacks, the clock, what the statistics
elements show, and (as a history variable) the texts on which `updateStats`
has run so far. -/
structure Widget where
  value : JSString
  timer : Option Nat
  pending : List (Nat × Nat)
  nextId : Nat
  now : Nat
  shown : Snapshot
  runs : List JSString
deriving DecidableEq

/-- What can happen to the page. -/
inductive Event where
  | input (newValue : JSString)
  | clickCount
  | clickClear
  | tick
deriving DecidableEq

/-- One call of `updateStats` on the page. -/
def runUpdate (engine : Option (Nat → Bool)) (w : Widget) : Widget :=
  { w with shown := updateStats engine w.value, runs := w.runs ++ [w.value] }

/-- The call `clearTimeout(id)`. -/
def clearTimeout (id : Nat) (w : Widget) : Widget :=
  { w with pending := w.pending.filter fun e => e.1 != id }

/-- The call `timer = setTimeout(callback, 150)`; timer ids are positive and
never reused. -/
def setTimer (w : Widget) : Widget :=
  { w with
    pending := w.pending ++ [(w.nextId, w.now + quietInterval)]
    timer := some w.nextId
    nextId := w.nextId + 1 }

/-- The `input` listener: `if (timer) clearTimeout(timer)`, then schedule. -/
def onInput (w : Widget) : Widget :=
  let w1 :=
    match w.timer with
    | some id => if id ≠ 0 then clearTimeout id w else w
    | none => w
  setTimer w1

/-- The debounce callback: `updateStats(); timer = null`. -/
def onTimeout (engine : Option (Nat → Bool)) (w : Widget) : Widget :=
  { runUpdate engine w with timer := none }

/-- Runs the callbacks of the given table entries, each leaving the table. -/
def fire (engine : Option (Nat → Bool)) (w : Widget) (due : List (Nat × Nat)) : Widget :=
  due.foldl (fun w e => onTimeout engine (clearTimeout e.1 w)) w

/-- One step of the page. -/
def step (engine : Option (Nat → Bool)) (w : Widget) : Event → Widget
  | Event.input v => onInput { w with value := v }
  | Event.clickCount => runUpdate engine w
  | Event.clickClear => runUpdate engine { w with value := [] }
  | Event.tick =>
    let w1 := { w with now := w.now + 1 }
    fire engine w1 (w1.pending.filter fun e => decide (e.2 ≤ w1.now))

/-- The page after loading: no timer, and `updateStats` has run once. -/
def init (engine : Option (Nat → Bool)) (v0 : JSString) : Widget :=
  runUpdate engine
    { value := v0, timer := none, pending := [], nextId := 1, now := 0,
      shown := ⟨0, 0, 0, 0, 0, JSValue.number 0⟩, runs := [] }

/-- A sequence of events. -/
def run (engine : Option (Nat → Bool)) (w : Widget) (evs : List Event) : Widget :=
  evs.foldl (step engine) w

/-- The passage of `k` time units without any other event. -/
def ticks (engine : Option (Nat → Bool)) (k : Nat) (w : Widget) : Widget :=
  run engine w (List.replicate k Event.tick)

/-- A burst of notifications: `first`, then each `(gap, v)` of `rest` arrives
`gap` time units after the previous one. -/
def burst (engine : Option (Nat → Bool)) (w : Widget) (first : JSString)
    (rest : List (Nat × JSString)) : Widget :=
  rest.foldl (fun w g => step engine (ticks engine g.1 w) (Event.input g.2))
    (step engine w (Event.input first))

/-- What holds of the timer in every reachable state. -/
def TimerInv (w : Widget) : Prop :=
  0 < w.nextId ∧
  ((w.timer = none ∧ w.pending = []) ∨
    ∃ id due, w.timer = some id ∧ w.pending = [(id, due)] ∧ 0 < id ∧ id < w.nextId ∧
      w.now < due ∧ due ≤ w.now + quietInterval)

/-- A freshly armed timer: the variable `timer` names the only pending
callback, due one quiet interval from now. -/
def Fresh (w : Widget) : Prop :=
  ∃ id, w.timer = some id ∧ w.pending = [(id, w.now + quietInterval)] ∧ 0 < id ∧ id < w.nextId

end WordCount

namespace Cart

/-! ## The shopping cart of `addtocartfemale.js` -/

/-- An entry of the `product` array. -/
structure Product where
  id : Nat
  image : String
  title : String
  price : Nat
deriving DecidableEq

/-- The array `product`, in source order. -/
def product : List Product :=
  [ ⟨0, "images/73.jpg", "Dress", 4200⟩,
    ⟨1, "images/72.jpg", "Dress", 1600⟩,
    ⟨2, "images/71.jpg", "Dress", 2300⟩,
    ⟨3, "images/70.jpg", "Dress", 2000⟩,
    ⟨4, "images/69.jpg", "Dress", 3800⟩,
    ⟨5, "images/68.jpg", "Dress", 3000⟩,
    ⟨6, "images/67.jpg", "Dress", 4000⟩,
    ⟨7, "images/66.jpg", "Dress", 2000⟩,
    ⟨6, "images/65.jpg", "Dress", 2600⟩,
    ⟨7, "images/60.jpg", "Dress", 800⟩,
    ⟨6, "images/64.jpg", "Dress", 2900⟩,
    ⟨7, "images/60.jpg", "Dress", 2800⟩ ]

/-- The array `categories = [...new Set(product.map(item => item))]`.  A `Set`
compares objects by identity; the identity of an object literal is its place
in the array, so each entry is paired with its position before duplicates are
dropped. -/
def categories : List Product :=
  (product.enum.eraseDups).map Prod.snd

/-- An object pushed on the cart: `{...categories[a]}` is a copy of the entry
at position `a`, or the empty object `{}` (`none`) when there is no such
entry. -/
abbrev CartItem := Option Product

/-- The page: the array `cart` and the contents of the elements `count` and
`total`. -/
structure Page where
  cart : List CartItem
  count : String
  total : String
deriving DecidableEq

/-- The sum `total + price`: `none` is `NaN`, which a missing price yields. -/
def addPrice (total : Option Nat) (item : CartItem) : Option Nat :=
  match total, item with
  | some t, some p => some (t + p.price)
  | _, _ => none

/-- The text of a number in a string concatenation. -/
def showNumber : Option Nat → String
  | some n => toString n
  | none => "NaN"

/-- The callback of `cart.map` in `displaycart`: adds the price of the item to
`total` and rewrites the total element. -/
def displayStep (acc : Option Nat × Page) (item : CartItem) : Option Nat × Page :=
  let total := addPrice acc.1 item
  (total, { acc.2 with total := " " ++ showNumber total ++ ".00" })

/-- The function `displaycart`: the count is written first; for an empty cart
the total reads `$ 0.00`, otherwise the callback runs on each item in turn,
starting from `total = 0`. -/
def displaycart (pg : Page) : Page :=
  let pg1 := { pg with count := toString pg.cart.length }
  if pg1.cart.length = 0 then
    { pg1 with total := "$ " ++ toString 0 ++ ".00" }
  else
    (pg1.cart.foldl displayStep (some 0, pg1)).2

/-- The function `addtocart`. -/
def addtocart (a : Nat) (pg : Page) : Page :=
  displaycart { pg with cart := pg.cart ++ [categories[a]?] }

/-- The function `delElement`: `cart.splice(a, 1)` removes the item at
position `a`, if there is one. -/
def delElement (a : Nat) (pg : Page) : Page :=
  displaycart { pg with cart := pg.cart.eraseIdx a }

/-- A click on the page. -/
inductive Op where
  | add (a : Nat)
  | del (j : Nat)
deriving DecidableEq

/-- The effect of a click. -/
def apply (pg : Page) : Op → Page
  | Op.add a => addtocart a pg
  | Op.del j => delElement j pg

/-- The click names a valid position: a product position for `add`, a
position of the current cart for `del`. -/
def Op.valid (pg : Page) : Op → Prop
  | Op.add a => a < 12
  | Op.del j => j < pg.cart.length

instance Op.decidableValid (pg : Page) : (op : Op) → Decidable (op.valid pg)
  | Op.add a => inferInstanceAs (Decidable (a < 12))
  | Op.del j => inferInstanceAs (Decidable (j < pg.cart.length))

/-- Every click of the sequence names a valid position when it happens. -/
def ValidFrom : Page → List Op → Prop
  | _, [] => True
  | pg, op :: ops => op.valid pg ∧ ValidFrom (apply pg op) ops

instance ValidFrom.decidable : (pg : Page) → (ops : List Op) → Decidable (ValidFrom pg ops)
  | _, [] => isTrue trivial
  | pg, op :: ops =>
    have := ValidFrom.decidable (apply pg op) ops
    inferInstanceAs (Decidable (op.valid pg ∧ ValidFrom (apply pg op) ops))

/-- The page before any click: the cart is empty and the two elements show
the text of the static markup. -/
def start (count0 total0 : String) : Page := ⟨[], count0, total0⟩

/-- The sum of the prices of the items in the cart. -/
def priceSum (cart : List CartItem) : Nat :=
  (cart.map fun item => match item with | some p => p.price | none => 0).sum

/-- The text of the total element for a cart. -/
def totalText (cart : List CartItem) : String :=
  if cart.length = 0 then "$ 0.00" else " " ++ toString (priceSum cart) ++ ".00"

/-- Every item of the cart is a copy of a product. -/
def AllCopies (cart : List CartItem) : Prop := ∀ item ∈ cart, ∃ p ∈ product, item = some p

/-- The page shows the cart: count and total agree with the array. -/
def Shows (pg : Page) : Prop :=
  AllCopies pg.cart ∧ pg.count = toString pg.cart.length ∧ pg.total = totalText pg.cart

end Cart
namespace WordCount

/-! ## The regular-expression model: basic facts -/

theorem matchSeq_eq_some {cs : List (Nat → Bool)} {s m r : List Nat}
    (h : matchSeq cs s = some (m, r)) : s = m ++ r ∧ m.length = cs.length := by
  induction cs generalizing s m with
  | nil =>
    simp only [matchSeq, Option.some.injEq, Prod.mk.injEq] at h
    obtain ⟨rfl, rfl⟩ := h
    simp
  | cons c cs ih =>
    cases s with
    | nil => simp [matchSeq] at h
    | cons x xs =>
      simp only [matchSeq] at h
      split at h
      · cases hm : matchSeq cs xs with
        | none => simp [hm] at h
        | some mr =>
          obtain ⟨m1, r1⟩ := mr
          simp only [hm, Option.some.injEq, Prod.mk.injEq] at h
          obtain ⟨rfl, rfl⟩ := h
          obtain ⟨h1, h2⟩ := ih hm
          simp [h1, h2]
      · simp at h

theorem matchAt_eq_some {p : Pattern} {s m r : List Nat}
    (h : matchAt p s = some (m, r)) : s = m ++ r ∧ 0 < m.length := by
  unfold matchAt at h
  cases hm : matchSeq (p.first :: p.more) s with
  | none => simp [hm] at h
  | some mr =>
    obtain ⟨m1, r1⟩ := mr
    simp only [hm, Option.some.injEq, Prod.mk.injEq] at h
    obtain ⟨rfl, rfl⟩ := h
    obtain ⟨h1, h2⟩ := matchSeq_eq_some hm
    constructor
    · rw [h1, List.append_assoc, List.takeWhile_append_dropWhile]
    · simp [h2]

theorem matchAt_rest_lt {p : Pattern} {s m r : List Nat}
    (h : matchAt p s = some (m, r)) : r.length < s.length := by
  obtain ⟨h1, h2⟩ := matchAt_eq_some h
  rw [h1, List.length_append]
  omega

/-- A pattern `first star*` matches at a position exactly when the character
there is in `first`, and then takes the longest run of `star` after it. -/
theorem matchAt_simple (f st : Nat → Bool) (x : Nat) (xs : List Nat) :
    matchAt ⟨f, [], st⟩ (x :: xs) =
      if f x then some (x :: xs.takeWhile st, xs.dropWhile st) else none := by
  unfold matchAt
  by_cases h : f x = true <;> simp [matchSeq, h]

/-! ### The fuel of the three scanning loops is always sufficient -/

theorem matchAllAux_fuel (p : Pattern) (f1 f2 : Nat) (s : List Nat)
    (h1 : s.length ≤ f1) (h2 : s.length ≤ f2) :
    matchAllAux p f1 s = matchAllAux p f2 s := by
  induction f1 generalizing f2 s with
  | zero =>
    have : s = [] := List.length_eq_zero.mp (by omega)
    subst this
    cases f2 <;> simp [matchAllAux]
  | succ n ih =>
    cases s with
    | nil => cases f2 <;> simp [matchAllAux]
    | cons x xs =>
      cases f2 with
      | zero => simp at h2
      | succ k =>
        simp only [matchAllAux]
        simp only [List.length_cons] at h1 h2
        cases hm : matchAt p (x :: xs) with
        | none => simp only []; exact ih k xs (by omega) (by omega)
        | some mr =>
          obtain ⟨m, r⟩ := mr
          have := matchAt_rest_lt hm
          simp only [List.length_cons] at this
          simp only []
          rw [ih k r (by omega) (by omega)]

theorem splitAux_fuel (p : Pattern) (f1 f2 : Nat) (s : List Nat)
    (h1 : s.length ≤ f1) (h2 : s.length ≤ f2) :
    splitAux p f1 s = splitAux p f2 s := by
  induction f1 generalizing f2 s with
  | zero =>
    have : s = [] := List.length_eq_zero.mp (by omega)
    subst this
    cases f2 <;> simp [splitAux]
  | succ n ih =>
    cases s with
    | nil => cases f2 <;> simp [splitAux]
    | cons x xs =>
      cases f2 with
      | zero => simp at h2
      | succ k =>
        simp only [splitAux]
        simp only [List.length_cons] at h1 h2
        cases hm : matchAt p (x :: xs) with
        | none => simp only []; rw [ih k xs (by omega) (by omega)]
        | some mr =>
          obtain ⟨m, r⟩ := mr
          have := matchAt_rest_lt hm
          simp only [List.length_cons] at this
          simp only []
          rw [ih k r (by omega) (by omega)]

theorem removeAllAux_fuel (p : Pattern) (f1 f2 : Nat) (s : List Nat)
    (h1 : s.length ≤ f1) (h2 : s.length ≤ f2) :
    removeAllAux p f1 s = removeAllAux p f2 s := by
  induction f1 generalizing f2 s with
  | zero =>
    have : s = [] := List.length_eq_zero.mp (by omega)
    subst this
    cases f2 <;> simp [removeAllAux]
  | succ n ih =>
    cases s with
    | nil => cases f2 <;> simp [removeAllAux]
    | cons x xs =>
      cases f2 with
      | zero => simp at h2
      | succ k =>
        simp only [removeAllAux]
        simp only [List.length_cons] at h1 h2
        cases hm : matchAt p (x :: xs) with
        | none => simp only []; rw [ih k xs (by omega) (by omega)]
        | some mr =>
          obtain ⟨m, r⟩ := mr
          have := matchAt_rest_lt hm
          simp only [List.length_cons] at this
          simp only []
          rw [ih k r (by omega) (by omega)]

/-! ### Unfolding equations without fuel -/

theorem matchAll_nil (p : Pattern) : matchAll p [] = [] := by
  simp [matchAll, matchAllAux]

theorem matchAll_cons (p : Pattern) (x : Nat) (xs : List Nat) :
    matchAll p (x :: xs) =
      match matchAt p (x :: xs) with
      | some (m, r) => m :: matchAll p r
      | none => matchAll p xs := by
  unfold matchAll
  simp only [List.length_cons, matchAllAux]
  cases hm : matchAt p (x :: xs) with
  | none => rfl
  | some mr =>
    obtain ⟨m, r⟩ := mr
    have := matchAt_rest_lt hm
    simp only [List.length_cons] at this
    simp only []
    rw [matchAllAux_fuel p xs.length r.length r (by omega) (le_refl _)]

theorem splitRegex_nil (p : Pattern) : splitRegex p [] = [[]] := by
  simp [splitRegex, splitAux]

theorem splitRegex_cons (p : Pattern) (x : Nat) (xs : List Nat) :
    splitRegex p (x :: xs) =
      match matchAt p (x :: xs) with
      | some (_, r) => [] :: splitRegex p r
      | none => consHead x (splitRegex p xs) := by
  unfold splitRegex
  simp only [List.length_cons, splitAux]
  cases hm : matchAt p (x :: xs) with
  | none => rfl
  | some mr =>
    obtain ⟨m, r⟩ := mr
    have := matchAt_rest_lt hm
    simp only [List.length_cons] at this
    simp only []
    rw [splitAux_fuel p xs.length r.length r (by omega) (le_refl _)]

theorem removeAll_nil (p : Pattern) : removeAll p [] = [] := by
  simp [removeAll, removeAllAux]

theorem removeAll_cons (p : Pattern) (x : Nat) (xs : List Nat) :
    removeAll p (x :: xs) =
      match matchAt p (x :: xs) with
      | some (_, r) => removeAll p r
      | none => x :: removeAll p xs := by
  unfold removeAll
  simp only [List.length_cons, removeAllAux]
  cases hm : matchAt p (x :: xs) with
  | none => rfl
  | some mr =>
    obtain ⟨m, r⟩ := mr
    have := matchAt_rest_lt hm
    simp only [List.length_cons] at this
    simp only []
    rw [removeAllAux_fuel p xs.length r.length r (by omega) (le_refl _)]

/-- Scanning with a pattern `first star*`. -/
theorem matchAll_simple_cons (f st : Nat → Bool) (x : Nat) (xs : List Nat) :
    matchAll ⟨f, [], st⟩ (x :: xs) =
      if f x then (x :: xs.takeWhile st) :: matchAll ⟨f, [], st⟩ (xs.dropWhile st)
      else matchAll ⟨f, [], st⟩ xs := by
  rw [matchAll_cons, matchAt_simple]
  by_cases h : f x = true <;> simp [h]

/-! ## `countWords`: the scan, the automaton and the positional description -/

theorem startsFrom_true (L : Nat → Bool) (s : List Nat) :
    startsFrom L true s = startsFrom L false (s.dropWhile (isWordCont L)) := by
  induction s with
  | nil => simp [startsFrom]
  | cons c cs ih =>
    by_cases hc : isWordCont L c = true
    · have : (L c || (true && isWordCont L c)) = true := by simp [hc]
      simp [startsFrom, this, List.dropWhile_cons, hc, ih]
    · have hL : L c = false := by
        simp only [isWordCont, Bool.or_eq_true, not_or] at hc
        simpa using hc.1.1
      simp only [Bool.not_eq_true] at hc
      simp [startsFrom, List.dropWhile_cons, hc, hL]

theorem matchAll_word_length (L : Nat → Bool) (s : List Nat) :
    (matchAll (wordPattern L) s).length = startsFrom L false s := by
  generalize h : s.length = n
  induction n using Nat.strong_induction_on generalizing s with
  | _ n ih =>
    cases s with
    | nil => simp [matchAll_nil, startsFrom]
    | cons c cs =>
      subst h
      unfold wordPattern
      rw [matchAll_simple_cons]
      by_cases hc : L c = true
      · have h1 := ih (cs.dropWhile (isWordCont L)).length
          (by simp only [List.length_cons]
              exact Nat.lt_succ_of_le (List.dropWhile_sublist _).length_le) _ rfl
        unfold wordPattern at h1
        simp only [hc, if_true, List.length_cons, h1, startsFrom, Bool.true_or]
        rw [startsFrom_true]
        simp
        omega
      · simp only [Bool.not_eq_true] at hc
        have h1 := ih cs.length (by simp) cs rfl
        unfold wordPattern at h1
        simp [hc, h1, startsFrom]

theorem reachable_zero (L : Nat → Bool) (s : List Nat) :
    reachableFromEarlierLetter L s 0 = false := by
  simp [reachableFromEarlierLetter]

theorem reachable_cons_succ (L : Nat → Bool) (c : Nat) (cs : List Nat) (i : Nat) :
    reachableFromEarlierLetter L (c :: cs) (i + 1) =
      (reachableFromEarlierLetter L cs i ||
        (L c && (List.range i).all fun k => isWordCont L (cs.getD k 0))) := by
  unfold reachableFromEarlierLetter
  rw [List.range_succ_eq_map]
  simp only [List.any_cons, List.any_map, List.all_cons, List.all_map, Function.comp_def,
    List.getD_cons_zero, List.getD_cons_succ, Nat.le_zero_eq, Nat.succ_le_succ_iff,
    Nat.succ_ne_zero, decide_False, Bool.false_or, Nat.zero_le, decide_True, Bool.true_or,
    Bool.true_and, le_refl, Nat.add_le_add_iff_right]
  rw [Bool.or_comm]

theorem wordStarts_general (L : Nat → Bool) (r : Bool) (s : List Nat) :
    ((List.range s.length).filter fun i =>
        L (s.getD i 0) &&
          !(reachableFromEarlierLetter L s i ||
            (r && (List.range i).all fun k => isWordCont L (s.getD k 0)))).length
      = startsFrom L r s := by
  induction s generalizing r with
  | nil => simp [startsFrom]
  | cons c cs ih =>
    rw [List.length_cons, List.range_succ_eq_map, List.filter_cons, List.filter_map,
      startsFrom, ← ih]
    simp only [reachable_zero, reachable_cons_succ, List.getD_cons_zero, List.range_zero,
      List.all_nil, Bool.and_true, Bool.false_or, Function.comp_def, List.getD_cons_succ]
    have key : ∀ i, (List.range (i+1)).all (fun k => isWordCont L ((c :: cs).getD k 0))
        = (isWordCont L c && (List.range i).all fun k => isWordCont L (cs.getD k 0)) := by
      intro i
      rw [List.range_succ_eq_map]
      simp [Function.comp_def]
    simp only [key]
    have e : ∀ i, (L (cs.getD i 0) &&
          !(reachableFromEarlierLetter L cs i ||
              (L c && (List.range i).all fun k => isWordCont L (cs.getD k 0)) ||
            r && (isWordCont L c && (List.range i).all fun k => isWordCont L (cs.getD k 0))))
        = (L (cs.getD i 0) &&
          !(reachableFromEarlierLetter L cs i ||
            ((L c || (r && isWordCont L c)) &&
              (List.range i).all fun k => isWordCont L (cs.getD k 0)))) := by
      intro i
      cases L (cs.getD i 0) <;> cases reachableFromEarlierLetter L cs i <;> cases L c <;>
        cases r <;> cases isWordCont L c <;>
        cases ((List.range i).all fun k => isWordCont L (cs.getD k 0)) <;> rfl
    simp only [e]
    by_cases h : (L c && !r) = true
    · simp [h]; omega
    · simp [h]

theorem countWords_some (L : Nat → Bool) (text : JSString) :
    countWords (some L) text = (matchAll (wordPattern L) (codePoints text)).length := by
  unfold countWords matchGlobal
  cases text with
  | nil => simp [codePoints, matchAll_nil]
  | cons a as =>
    simp only [List.isEmpty_cons, Bool.false_eq_true, if_false]
    cases h : matchAll (wordPattern L) (codePoints (a :: as)) <;> simp

theorem startsFrom_congr (L L' : Nat → Bool) (r : Bool) (s : List Nat)
    (h : ∀ c ∈ s, L c = L' c) : startsFrom L r s = startsFrom L' r s := by
  induction s generalizing r with
  | nil => rfl
  | cons c cs ih =>
    have hc : L c = L' c := h c (by simp)
    simp only [startsFrom, isWordCont, hc]
    rw [ih _ (fun d hd => h d (by simp [hd]))]

theorem startsFrom_no_letter (L : Nat → Bool) (s : List Nat)
    (h : ∀ c ∈ s, L c = false) : startsFrom L false s = 0 := by
  induction s with
  | nil => rfl
  | cons c cs ih =>
    have hc : L c = false := h c (by simp)
    simp [startsFrom, hc, ih (fun d hd => h d (by simp [hd]))]

theorem matchAll_skip_gap (f st : Nat → Bool) (s : List Nat) :
    matchAll ⟨f, [], st⟩ s = matchAll ⟨f, [], st⟩ (s.dropWhile fun c => !f c) := by
  induction s with
  | nil => rfl
  | cons c cs ih =>
    by_cases hc : f c = true
    · simp [List.dropWhile_cons, hc]
    · simp only [Bool.not_eq_true] at hc
      rw [matchAll_simple_cons]
      simp [List.dropWhile_cons, hc, ih]

theorem head_dropWhile_not (p : Nat → Bool) (s : List Nat) (d : Nat)
    (h : (s.dropWhile p).head? = some d) : p d = false := by
  induction s with
  | nil => simp at h
  | cons c cs ih =>
    by_cases hc : p c = true
    · simp only [List.dropWhile_cons, hc, if_true] at h
      exact ih h
    · simp only [Bool.not_eq_true] at hc
      simp only [List.dropWhile_cons, hc] at h
      simp at h
      subst h
      exact hc

theorem matchAll_word_greedy (L : Nat → Bool) (s : List Nat) :
    GreedyWordMatches L s (matchAll (wordPattern L) s) := by
  generalize h : s.length = n
  induction n using Nat.strong_induction_on generalizing s with
  | _ n ih =>
    subst h
    have hsplit := List.takeWhile_append_dropWhile (fun c => !L c) s
    have hgap : ∀ c ∈ s.takeWhile (fun c => !L c), L c = false := by
      intro c hc
      simpa using List.mem_takeWhile_imp hc
    unfold wordPattern
    rw [matchAll_skip_gap]
    cases hd : s.dropWhile (fun c => !L c) with
    | nil =>
      rw [hd, List.append_nil] at hsplit
      rw [matchAll_nil, ← hsplit]
      exact GreedyWordMatches.done _ hgap
    | cons c cs =>
      have hc : L c = true := by
        have := head_dropWhile_not (fun c => !L c) s c (by simp [hd])
        simpa using this
      rw [matchAll_simple_cons]
      simp only [hc, if_true]
      have hlen : (cs.dropWhile (isWordCont L)).length < s.length := by
        have h1 := (List.dropWhile_sublist (isWordCont L) (l := cs)).length_le
        have h2 : s.length = (s.takeWhile fun c => !L c).length + (c :: cs).length := by
          rw [← hd, ← List.length_append, hsplit]
        simp only [List.length_cons] at h2
        omega
      have hrec := ih _ hlen (cs.dropWhile (isWordCont L)) rfl
      unfold wordPattern at hrec
      have hs : s = s.takeWhile (fun c => !L c) ++ c :: cs.takeWhile (isWordCont L)
          ++ cs.dropWhile (isWordCont L) := by
        conv_lhs => rw [← hsplit, hd]
        simp [List.takeWhile_append_dropWhile]
      conv => lhs; rw [hs]
      exact GreedyWordMatches.step _ c _ _ _ hgap hc
        (fun d hd => List.mem_takeWhile_imp hd)
        (fun d hd => head_dropWhile_not _ _ d hd) hrec

theorem countWords_eq_startsFrom (L : Nat → Bool) (text : JSString) :
    countWords (some L) text = startsFrom L false (codePoints text) := by
  rw [countWords_some, matchAll_word_length]

theorem wordStartPositions_length (L : Nat → Bool) (s : List Nat) :
    (wordStartPositions L s).length = startsFrom L false s := by
  rw [← wordStarts_general]
  simp [wordStartPositions]

/-! ## Maximal runs -/

theorem maximalRuns_cons (p : Nat → Bool) (c : Nat) (cs : List Nat) :
    maximalRuns p (c :: cs) =
      (c :: cs.takeWhile fun d => p d == p c) ::
        maximalRuns p (cs.dropWhile fun d => p d == p c) := by
  induction cs generalizing c with
  | nil => simp [maximalRuns]
  | cons d ds ih =>
    rw [maximalRuns, ih d]
    by_cases h : p c = p d
    · have hf : (fun e => p e == p c) = (fun e => p e == p d) := by
        funext e; rw [h]
      simp [h, List.takeWhile_cons, List.dropWhile_cons, hf]
    · have h' : (p d == p c) = false := by
        simp only [beq_eq_false_iff_ne, ne_eq]
        exact fun e => h e.symm
      have h'' : (p c == p d) = false := by simpa using h
      simp only [h'', Bool.false_eq_true, if_false, List.takeWhile_cons, List.dropWhile_cons, h']
      rw [ih d]

theorem runsOf_cons_in (p : Nat → Bool) (c : Nat) (cs : List Nat) (hc : p c = true) :
    runsOf p (c :: cs) = (c :: cs.takeWhile p) :: runsOf p (cs.dropWhile p) := by
  have hf : (fun d => p d == p c) = p := by
    funext d; simp [hc]
  unfold runsOf
  rw [maximalRuns_cons, hf, List.filter_cons]
  have : (c :: cs.takeWhile p).all p = true := by
    simp only [List.all_cons, hc, Bool.true_and, List.all_eq_true]
    exact fun d hd => List.mem_takeWhile_imp hd
  simp [this]

theorem runsOf_cons_out (p : Nat → Bool) (c : Nat) (cs : List Nat) (hc : p c = false) :
    runsOf p (c :: cs) = runsOf p (cs.dropWhile fun d => !p d) := by
  have hf : (fun d => p d == p c) = (fun d => !p d) := by
    funext d; simp [hc]
  unfold runsOf
  rw [maximalRuns_cons, hf, List.filter_cons]
  simp [hc]

/-- The matches of `c+` are the maximal runs of the class `c`. -/
theorem matchAll_plus_eq_runsOf (p : Nat → Bool) (s : List Nat) :
    matchAll ⟨p, [], p⟩ s = runsOf p s := by
  generalize h : s.length = n
  induction n using Nat.strong_induction_on generalizing s with
  | _ n ih =>
    subst h
    cases s with
    | nil => simp [matchAll_nil, runsOf, maximalRuns]
    | cons c cs =>
      by_cases hc : p c = true
      · rw [matchAll_simple_cons, runsOf_cons_in p c cs hc]
        simp only [hc, if_true]
        rw [ih (cs.dropWhile p).length
          (by simp only [List.length_cons]
              exact Nat.lt_succ_of_le (List.dropWhile_sublist _).length_le) _ rfl]
      · simp only [Bool.not_eq_true] at hc
        rw [matchAll_skip_gap, runsOf_cons_out p c cs hc]
        simp only [List.dropWhile_cons, hc, Bool.not_false, if_true]
        exact ih (cs.dropWhile fun d => !p d).length
          (by simp only [List.length_cons]
              exact Nat.lt_succ_of_le (List.dropWhile_sublist _).length_le) _ rfl

theorem countSentences_eq (text : JSString) :
    countSentences text = (runsOf isTerminator text).length := by
  unfold countSentences matchGlobal terminatorPattern
  rw [matchAll_plus_eq_runsOf]
  cases text with
  | nil => simp [runsOf, maximalRuns]
  | cons a as =>
    simp only [List.isEmpty_cons, Bool.false_eq_true, if_false]
    cases h : runsOf isTerminator (a :: as) <;> simp

theorem runsOf_none (p : Nat → Bool) (s : List Nat) (h : ∀ c ∈ s, p c = false) :
    runsOf p s = [] := by
  generalize hn : s.length = n
  induction n using Nat.strong_induction_on generalizing s with
  | _ n ih =>
    subst hn
    cases s with
    | nil => simp [runsOf, maximalRuns]
    | cons c cs =>
      rw [runsOf_cons_out p c cs (h c (by simp))]
      exact ih _ (by simp only [List.length_cons]
                     exact Nat.lt_succ_of_le (List.dropWhile_sublist _).length_le) _
        (fun d hd => h d (List.mem_cons_of_mem _ ((List.dropWhile_sublist _).subset hd))) rfl

theorem runsOf_all (p : Nat → Bool) (c : Nat) (cs : List Nat)
    (h : ∀ d ∈ c :: cs, p d = true) : runsOf p (c :: cs) = [c :: cs] := by
  have hc := h c (by simp)
  have hcs : ∀ d ∈ cs, p d = true := fun d hd => h d (by simp [hd])
  rw [runsOf_cons_in p c cs hc, List.takeWhile_eq_self_iff.mpr hcs,
    List.dropWhile_eq_nil_iff.mpr hcs]
  simp [runsOf, maximalRuns]

/-- C1: `countWords` on an engine with letter class `L` (the primary path)
returns the number of matches of the left-to-right greedy scan for
`\p{L}[\p{L}'-]*` over the code points of the text; these matches are
non-overlapping, leftmost and greedy (`GreedyWordMatches`); equivalently the
result is the number of letter positions not reachable from an earlier letter
through an unbroken run of letters, apostrophes and hyphens.  A text without a
letter yields 0 and `countWords("don't stop-go 123") = 2`. -/
theorem countWords_counts_greedy_matches (L : Nat → Bool) :
    (∀ text : JSString,
      countWords (some L) text = (matchAll (wordPattern L) (codePoints text)).length ∧
      GreedyWordMatches L (codePoints text) (matchAll (wordPattern L) (codePoints text)) ∧
      countWords (some L) text = (wordStartPositions L (codePoints text)).length) ∧
    (∀ text : JSString, (∀ c ∈ codePoints text, L c = false) → countWords (some L) text = 0) ∧
    countWords (some L) (js "") = 0 ∧
    (AsciiFaithful L →
      countWords (some L) (js "don't stop-go 123") = 2 ∧
      countWords (some L) (js "12345") = 0 ∧
      countWords (some L) (js "?!, ...") = 0) := by
  refine ⟨fun text => ⟨countWords_some L text, matchAll_word_greedy L _, ?_⟩, ?_, rfl, ?_⟩
  · rw [countWords_eq_startsFrom, wordStartPositions_length]
  · intro text h
    rw [countWords_eq_startsFrom, startsFrom_no_letter L _ h]
  · intro hL
    have key : ∀ t : JSString, (∀ c ∈ codePoints t, c < 128) →
        countWords (some L) t = startsFrom asciiLetter false (codePoints t) := by
      intro t ht
      rw [countWords_eq_startsFrom]
      exact startsFrom_congr L asciiLetter false _ (fun c hc => hL c (ht c hc))
    refine ⟨?_, ?_, ?_⟩
    · rw [key _ (by decide)]; decide
    · rw [key _ (by decide)]; decide
    · rw [key _ (by decide)]; decide

theorem countWords_counts_greedy_matches_witness :
    (∀ c ∈ codePoints (js "2 + 2 = 4"), asciiLetter c = false) ∧
    countWords (some asciiLetter) (js "2 + 2 = 4") = 0 ∧
    AsciiFaithful asciiLetter ∧
    countWords (some asciiLetter) (js "don't stop-go 123") = 2 :=
  ⟨by decide,
   (countWords_counts_greedy_matches asciiLetter).2.1 (js "2 + 2 = 4") (by decide),
   fun _ _ => rfl,
   ((countWords_counts_greedy_matches asciiLetter).2.2.2 (fun _ _ => rfl)).1⟩

/-- C2: `countSentences` returns the number of maximal runs of characters
from `.`, `!`, `?`: a run counts once whatever its length and mix, a text
without such a character yields 0, `countSentences("Hello... World?!") = 2`
and `countSentences("...") = 1`. -/
theorem countSentences_counts_maximal_runs :
    (∀ text : JSString, countSentences text = (runsOf isTerminator text).length) ∧
    (∀ run : JSString, run ≠ [] → (∀ c ∈ run, isTerminator c = true) →
      countSentences run = 1) ∧
    (∀ text : JSString, (∀ c ∈ text, isTerminator c = false) → countSentences text = 0) ∧
    countSentences (js "Hello... World?!") = 2 ∧
    countSentences (js "...") = 1 := by
  refine ⟨countSentences_eq, ?_, ?_, by decide, by decide⟩
  · intro run hne hall
    cases run with
    | nil => exact absurd rfl hne
    | cons c cs => rw [countSentences_eq, runsOf_all _ c cs hall]; rfl
  · intro text h
    rw [countSentences_eq, runsOf_none _ _ h]; rfl

theorem countSentences_counts_maximal_runs_witness :
    js "?!?" ≠ [] ∧ (∀ c ∈ js "?!?", isTerminator c = true) ∧ countSentences (js "?!?") = 1 ∧
    (∀ c ∈ js "no end", isTerminator c = false) ∧ countSentences (js "no end") = 0 :=
  ⟨by decide, by decide,
   countSentences_counts_maximal_runs.2.1 (js "?!?") (by decide) (by decide),
   by decide,
   countSentences_counts_maximal_runs.2.2.1 (js "no end") (by decide)⟩

/-! ## `countParagraphs` -/

theorem cutAtRuns_ne_nil (sep : List Nat → Bool) (rs : List (List Nat)) :
    cutAtRuns sep rs ≠ [] := by
  cases rs with
  | nil => simp [cutAtRuns]
  | cons r rs =>
    unfold cutAtRuns
    split
    · simp
    · split <;> simp

theorem maximalRuns_head (p : Nat → Bool) (cs : List Nat) (d : Nat) (r : List Nat)
    (rs : List (List Nat)) (h : maximalRuns p cs = (d :: r) :: rs) : cs.head? = some d := by
  cases cs with
  | nil => simp [maximalRuns] at h
  | cons e es =>
    rw [maximalRuns_cons] at h
    simp only [List.cons.injEq] at h
    simp [h.1.1]

theorem isBlankRun_cons_not_nl (c : Nat) (r : List Nat) (h : isNewline c = false) :
    isBlankRun (c :: r) = false := by
  simp [isBlankRun, h]

/-- Where the separator pattern does not match, the character joins the
current fragment of the run-based cut as well. -/
theorem cut_runs_cons_no_match (c : Nat) (cs : List Nat)
    (h : isNewline c = false ∨ ∀ d, cs.head? = some d → isNewline d = false) :
    cutAtRuns isBlankRun (maximalRuns isNewline (c :: cs)) =
      consHead c (cutAtRuns isBlankRun (maximalRuns isNewline cs)) := by
  have single : ∀ rs, cutAtRuns isBlankRun ([c] :: rs) = consHead c (cutAtRuns isBlankRun rs) := by
    intro rs
    rw [cutAtRuns]
    have : isBlankRun [c] = false := by simp [isBlankRun]
    simp only [this, Bool.false_eq_true, if_false]
    cases hrs : cutAtRuns isBlankRun rs with
    | nil => exact absurd hrs (cutAtRuns_ne_nil _ _)
    | cons f fs => simp [consHead]
  rw [maximalRuns]
  cases hr : maximalRuns isNewline cs with
  | nil => exact single _
  | cons r0 rs =>
    cases r0 with
    | nil => exact single _
    | cons d r =>
      simp only []
      by_cases hcd : isNewline c = isNewline d
      · have hd : isNewline d = false := by
          rcases h with h | h
          · rw [← hcd]; exact h
          · exact h d (maximalRuns_head _ cs d r rs hr)
        have hc : isNewline c = false := by rw [hcd]; exact hd
        simp only [hcd, beq_self_eq_true, if_true]
        rw [cutAtRuns, cutAtRuns, isBlankRun_cons_not_nl c _ hc, isBlankRun_cons_not_nl d _ hd]
        simp only [Bool.false_eq_true, if_false]
        cases hrs : cutAtRuns isBlankRun rs with
        | nil => exact absurd hrs (cutAtRuns_ne_nil _ _)
        | cons f fs => simp [consHead]
      · have : (isNewline c == isNewline d) = false := by simpa using hcd
        simp only [this, Bool.false_eq_true, if_false]
        exact single _

theorem matchAt_blankLine (c : Nat) (cs : List Nat) :
    matchAt blankLinePattern (c :: cs) =
      match cs with
      | [] => none
      | d :: ds =>
        if isNewline c && isNewline d then
          some (c :: d :: ds.takeWhile isNewline, ds.dropWhile isNewline)
        else none := by
  unfold matchAt blankLinePattern
  cases cs with
  | nil => by_cases hc : isNewline c = true <;> simp [matchSeq, hc]
  | cons d ds =>
    by_cases hc : isNewline c = true <;> by_cases hd : isNewline d = true <;>
      simp [matchSeq, hc, hd]

/-- Splitting on `\n\n+` cuts the text at its maximal runs of two or more
newlines. -/
theorem splitRegex_blankLine (s : List Nat) :
    splitRegex blankLinePattern s = cutAtRuns isBlankRun (maximalRuns isNewline s) := by
  generalize h : s.length = n
  induction n using Nat.strong_induction_on generalizing s with
  | _ n ih =>
    subst h
    cases s with
    | nil => simp [splitRegex_nil, maximalRuns, cutAtRuns]
    | cons c cs =>
      rw [splitRegex_cons, matchAt_blankLine]
      cases cs with
      | nil =>
        simp only []
        rw [ih 0 (by simp) [] rfl, cut_runs_cons_no_match c [] (Or.inr (by simp))]
      | cons d ds =>
        by_cases hm : (isNewline c && isNewline d) = true
        · simp only [hm, if_true]
          have hc : isNewline c = true := by
            simp only [Bool.and_eq_true] at hm; exact hm.1
          have hd : isNewline d = true := by
            simp only [Bool.and_eq_true] at hm; exact hm.2
          have hf : (fun e => isNewline e == isNewline c) = isNewline := by
            funext e; simp [hc]
          rw [maximalRuns_cons, hf, cutAtRuns]
          have hsep : isBlankRun (c :: (d :: ds).takeWhile isNewline) = true := by
            simp only [isBlankRun, List.takeWhile_cons, hd, if_true, List.all_cons, hc,
              Bool.true_and, List.length_cons, Bool.and_eq_true, List.all_eq_true,
              decide_eq_true_eq]
            exact ⟨fun e he => List.mem_takeWhile_imp he, by omega⟩
          simp only [hsep, if_true, List.dropWhile_cons, hd]
          rw [ih (ds.dropWhile isNewline).length
            (by simp only [List.length_cons]
                have := (List.dropWhile_sublist isNewline (l := ds)).length_le
                omega) _ rfl]
        · simp only [hm, Bool.false_eq_true, if_false]
          rw [ih (d :: ds).length (by simp) _ rfl]
          rw [cut_runs_cons_no_match c (d :: ds)]
          simp only [Bool.and_eq_true, not_and, Bool.not_eq_true] at hm
          by_cases hc : isNewline c = true
          · exact Or.inr (fun e he => by
              simp only [List.head?_cons, Option.some.injEq] at he
              subst he
              exact hm hc)
          · exact Or.inl (by simpa using hc)

theorem countParagraphs_eq (text : JSString) :
    countParagraphs text = (filterBoolean (paragraphFragments text)).length := by
  unfold countParagraphs paragraphFragments
  rw [← splitRegex_blankLine]
  cases text with
  | nil => simp [trim, splitRegex_nil, filterBoolean]
  | cons a as => simp

theorem trim_eq_rdropWhile (s : JSString) :
    trim s = (s.dropWhile isWhiteSpace).rdropWhile isWhiteSpace := rfl

theorem trim_all_space (s : JSString) (h : ∀ c ∈ s, isWhiteSpace c = true) : trim s = [] := by
  unfold trim
  rw [List.dropWhile_eq_nil_iff.mpr h]
  rfl

theorem trim_head (s : JSString) (h : ∃ c ∈ s, isWhiteSpace c = false) :
    ∃ x xs, trim s = x :: xs ∧ isWhiteSpace x = false := by
  obtain ⟨c, hc, hcw⟩ := h
  cases hd : s.dropWhile isWhiteSpace with
  | nil =>
    have := List.dropWhile_eq_nil_iff.mp hd c hc
    rw [hcw] at this
    exact absurd this (by simp)
  | cons x xs =>
    have hx : isWhiteSpace x = false := head_dropWhile_not isWhiteSpace s x (by simp [hd])
    rw [trim_eq_rdropWhile, hd]
    have hpre : (x :: xs).rdropWhile isWhiteSpace <+: x :: xs := List.rdropWhile_prefix _ _
    cases ht : (x :: xs).rdropWhile isWhiteSpace with
    | nil =>
      have := List.rdropWhile_eq_nil_iff.mp ht x (by simp)
      rw [hx] at this
      exact absurd this (by simp)
    | cons y ys =>
      rw [ht] at hpre
      obtain ⟨t, ht2⟩ := hpre
      simp only [List.cons_append, List.cons.injEq] at ht2
      exact ⟨y, ys, rfl, ht2.1 ▸ hx⟩

theorem isNewline_isWhiteSpace (c : Nat) (h : isNewline c = true) : isWhiteSpace c = true := by
  simp only [isNewline, beq_iff_eq] at h
  subst h
  rfl

/-- C3: `countParagraphs` returns the number of non-empty fragments obtained
by trimming the text and splitting the result on every maximal run of two or
more consecutive newlines.  Empty or white-space-only text yields 0, a text
with at least one non-white-space character yields at least 1, and
`countParagraphs("a\n\nb\n\n\nc") = 3`. -/
theorem countParagraphs_counts_fragments :
    (∀ text : JSString,
      countParagraphs text = (filterBoolean (paragraphFragments text)).length) ∧
    (∀ text : JSString, (∀ c ∈ text, isWhiteSpace c = true) → countParagraphs text = 0) ∧
    (∀ text : JSString, (∃ c ∈ text, isWhiteSpace c = false) → 1 ≤ countParagraphs text) ∧
    countParagraphs (js "") = 0 ∧
    countParagraphs (js "a\n\nb\n\n\nc") = 3 := by
  refine ⟨countParagraphs_eq, ?_, ?_, by decide, by decide⟩
  · intro text h
    unfold countParagraphs
    rw [trim_all_space text h]
    simp [splitRegex_nil, filterBoolean]
  · intro text h
    obtain ⟨x, xs, ht, hx⟩ := trim_head text h
    have hne : text ≠ [] := by
      obtain ⟨c, hc, _⟩ := h
      exact List.ne_nil_of_mem hc
    have hnl : isNewline x = false := by
      cases hn : isNewline x with
      | false => rfl
      | true => rw [isNewline_isWhiteSpace x hn] at hx; exact absurd hx (by simp)
    unfold countParagraphs
    cases text with
    | nil => exact absurd rfl hne
    | cons a as =>
      simp only [List.isEmpty_cons, Bool.false_eq_true, if_false]
      rw [ht, splitRegex_cons, matchAt_blankLine]
      have hnone : (match xs with
          | [] => (none : Option (List Nat × List Nat))
          | d :: ds =>
            if (isNewline x && isNewline d) = true then
              some (x :: d :: ds.takeWhile isNewline, ds.dropWhile isNewline)
            else none) = none := by
        cases xs <;> simp [hnl]
      rw [hnone]
      simp only []
      cases hs : splitRegex blankLinePattern xs with
      | nil => simp [consHead, filterBoolean]
      | cons f fs => simp [consHead, filterBoolean, List.filter_cons]

theorem countParagraphs_counts_fragments_witness :
    (∀ c ∈ js " \n\t\n ", isWhiteSpace c = true) ∧ countParagraphs (js " \n\t\n ") = 0 ∧
    (∃ c ∈ js "\n\n x \n\n", isWhiteSpace c = false) ∧ 1 ≤ countParagraphs (js "\n\n x \n\n") :=
  ⟨by decide,
   countParagraphs_counts_fragments.2.1 (js " \n\t\n ") (by decide),
   by decide,
   countParagraphs_counts_fragments.2.2.1 (js "\n\n x \n\n") (by decide)⟩

/-! ## The quotient and `toFixed(1)` -/

theorem normShiftAux_spec (a b : Nat) (ha : 1 ≤ a) (f s : Nat) (h : s + f = 52 + b) :
    2 ^ 52 * b ≤ a * 2 ^ normShiftAux a b f s := by
  induction f generalizing s with
  | zero =>
    simp only [normShiftAux]
    have hs : s = 52 + b := by omega
    subst hs
    have hb : b ≤ 2 ^ b := Nat.le_of_lt (Nat.lt_two_pow b)
    calc 2 ^ 52 * b ≤ 2 ^ 52 * 2 ^ b := Nat.mul_le_mul_left _ hb
      _ = 1 * 2 ^ (52 + b) := by rw [pow_add, one_mul]
      _ ≤ a * 2 ^ (52 + b) := Nat.mul_le_mul_right _ ha
  | succ f ih =>
    simp only [normShiftAux]
    split
    · assumption
    · exact ih (s + 1) (by omega)

theorem normShift_spec (a b : Nat) (ha : 1 ≤ a) :
    2 ^ 52 * b ≤ a * 2 ^ normShift a b :=
  normShiftAux_spec a b ha (52 + b) 0 (by omega)

theorem roundHalfEven_spec (num den : Nat) (hden : 0 < den) :
    2 * (roundHalfEven num den * den) ≤ 2 * num + den ∧
    2 * num ≤ 2 * (roundHalfEven num den * den) + den := by
  have h1 := Nat.div_add_mod num den
  have h2 := Nat.mod_lt num hden
  unfold roundHalfEven
  simp only []
  generalize num / den = q at *
  generalize num % den = r at *
  have e1 : (q + 1) * den = den * q + den := by ring
  have e2 : q * den = den * q := by ring
  generalize hD : den * q = D at *
  split
  · rw [e2]; omega
  · split
    · rw [e1]; omega
    · split
      · rw [e2]; omega
      · rw [e1]; omega

theorem toFixedTenths_spec (m s : Nat) :
    2 * 2 ^ s * toFixedTenths ⟨m, s⟩ ≤ 20 * m + 2 ^ s ∧
    20 * m + 2 ^ s < 2 * 2 ^ s * (toFixedTenths ⟨m, s⟩ + 1) := by
  unfold toFixedTenths
  simp only []
  have hp : 0 < 2 * 2 ^ s := by positivity
  rw [pow_succ, Nat.mul_comm (2 ^ s) 2]
  exact ⟨Nat.mul_div_le _ _, Nat.lt_mul_div_succ _ hp⟩

/-- The core of the rounding argument, on integers: `m` is the 53-bit
significand of `a / b` at scale `P`, `n` the tenths chosen by `toFixed(1)`. -/
theorem tenths_nearest_core (a b P m n : Nat) (hb : 1 ≤ b) (ha : 10 * a < 2 ^ 52)
    (hF1 : 2 ^ 52 * b ≤ a * P)
    (hm1 : 2 * (m * b) ≤ 2 * (a * P) + b) (hm2 : 2 * (a * P) ≤ 2 * (m * b) + b)
    (hn1 : 2 * P * n ≤ 20 * m + P) (hn2 : 20 * m + P < 2 * P * (n + 1)) :
    20 * a ≤ (2 * n + 1) * b ∧ 2 * n * b ≤ 20 * a + b := by
  have key : ¬ P ≤ 10 * b := by
    intro hP
    have h1 : a * P ≤ a * (10 * b) := Nat.mul_le_mul_left _ hP
    have h2 : 2 ^ 52 * b ≤ (10 * a) * b := by
      calc 2 ^ 52 * b ≤ a * P := hF1
        _ ≤ a * (10 * b) := h1
        _ = (10 * a) * b := by ring
    have h3 := Nat.le_of_mul_le_mul_right h2 (by omega : 0 < b)
    omega
  constructor
  · by_contra hc
    apply key
    have hc' : (2 * n + 1) * b + 1 ≤ 20 * a := by omega
    have hB : ((2 * n + 1) * b + 1) * P ≤ 20 * a * P := Nat.mul_le_mul_right _ hc'
    have hA : (20 * m + P + 1) * b ≤ 2 * P * (n + 1) * b := Nat.mul_le_mul_right _ hn2
    nlinarith [hA, hB, hm2]
  · by_contra hc
    apply key
    have hc' : 20 * a + b + 1 ≤ 2 * n * b := by omega
    have hB : (20 * a + b + 1) * P ≤ 2 * n * b * P := Nat.mul_le_mul_right _ hc'
    have hA : 2 * P * n * b ≤ (20 * m + P) * b := Nat.mul_le_mul_right _ hn1
    nlinarith [hA, hB, hm1]

theorem divDouble_zero (b : Nat) : toFixedTenths (divDouble 0 b) = 0 := by
  unfold divDouble toFixedTenths
  have : roundHalfEven (0 * 2 ^ normShift 0 b) b = 0 := by
    unfold roundHalfEven
    simp
  simp only [this, Nat.mul_zero, Nat.zero_add]
  apply Nat.div_eq_of_lt
  rw [pow_succ]
  have : 0 < 2 ^ normShift 0 b := by positivity
  omega

theorem tenths_nearest_int (a b : Nat) (hb : 1 ≤ b) (ha : 10 * a < 2 ^ 52) :
    20 * a ≤ (2 * toFixedTenths (divDouble a b) + 1) * b ∧
    2 * toFixedTenths (divDouble a b) * b ≤ 20 * a + b := by
  rcases Nat.eq_zero_or_pos a with h0 | hpos
  · subst h0
    rw [divDouble_zero b]
    omega
  · have hF1 := normShift_spec a b hpos
    have hm := roundHalfEven_spec (a * 2 ^ normShift a b) b hb
    have hn := toFixedTenths_spec (roundHalfEven (a * 2 ^ normShift a b) b) (normShift a b)
    exact tenths_nearest_core a b (2 ^ normShift a b) _ _ hb ha hF1 hm.1 hm.2 hn.1 hn.2

theorem tenths_rounded (a b : Nat) (hb : 1 ≤ b) (ha : 10 * a < 2 ^ 52) :
    IsRoundedToOneDecimal (toFixedTenths (divDouble a b)) ((a : ℚ) / b) := by
  obtain ⟨h1, h2⟩ := tenths_nearest_int a b hb ha
  generalize toFixedTenths (divDouble a b) = n at h1 h2
  unfold IsRoundedToOneDecimal
  have hbq : (0 : ℚ) < b := by exact_mod_cast hb
  have h1q : (20 : ℚ) * a ≤ (2 * n + 1) * b := by exact_mod_cast h1
  have h2q : (2 : ℚ) * n * b ≤ 20 * a + b := by exact_mod_cast h2
  have e : (n : ℚ) / 10 - a / b = (2 * n * b - 20 * a) / (20 * b) := by
    field_simp
    ring
  rw [e, abs_le]
  constructor
  · rw [le_div_iff₀ (by positivity)]
    nlinarith
  · rw [div_le_iff₀ (by positivity)]
    nlinarith

theorem normShiftAux_least (a b : Nat) (f s : Nat)
    (h : ∀ t, t < s → ¬ 2 ^ 52 * b ≤ a * 2 ^ t) :
    ∀ t, t < normShiftAux a b f s → ¬ 2 ^ 52 * b ≤ a * 2 ^ t := by
  induction f generalizing s with
  | zero => exact h
  | succ f ih =>
    simp only [normShiftAux]
    split
    · exact h
    · rename_i hs
      apply ih
      intro t ht
      rcases Nat.lt_succ_iff_lt_or_eq.mp ht with h1 | h1
      · exact h t h1
      · rw [h1]; exact hs

/-- The significand of the quotient has 53 bits: the model of the division is
the correctly rounded one on its domain. -/
theorem divDouble_mant_range (a b : Nat) (ha : 1 ≤ a) (ha53 : a < 2 ^ 53) (hb : 1 ≤ b) :
    2 ^ 52 ≤ (divDouble a b).mant ∧ (divDouble a b).mant ≤ 2 ^ 53 := by
  have hlow := normShift_spec a b ha
  have hleast := normShiftAux_least a b (52 + b) 0 (by intro t ht; omega)
  change ∀ t, t < normShift a b → _ at hleast
  have hup : a * 2 ^ normShift a b < 2 ^ 53 * b := by
    rcases Nat.eq_zero_or_pos (normShift a b) with h0 | hpos
    · rw [h0, pow_zero, mul_one]
      calc a < 2 ^ 53 := ha53
        _ = 2 ^ 53 * 1 := (mul_one _).symm
        _ ≤ 2 ^ 53 * b := Nat.mul_le_mul_left _ hb
    · have h1 := hleast (normShift a b - 1) (by omega)
      have e : 2 ^ normShift a b = 2 ^ (normShift a b - 1) * 2 := by
        rw [← pow_succ]; congr 1; omega
      rw [e]
      have : a * 2 ^ (normShift a b - 1) < 2 ^ 52 * b := by omega
      calc a * (2 ^ (normShift a b - 1) * 2) = (a * 2 ^ (normShift a b - 1)) * 2 := by ring
        _ < (2 ^ 52 * b) * 2 := by omega
        _ = 2 ^ 53 * b := by ring
  unfold divDouble
  simp only []
  generalize a * 2 ^ normShift a b = N at hlow hup
  have hq1 : 2 ^ 52 ≤ N / b := (Nat.le_div_iff_mul_le hb).mpr hlow
  have hq2 : N / b < 2 ^ 53 := (Nat.div_lt_iff_lt_mul hb).mpr hup
  unfold roundHalfEven
  simp only []
  constructor
  · split
    · exact hq1
    · split
      · omega
      · split <;> omega
  · split
    · omega
    · split
      · omega
      · split <;> omega

/-! ## Removing and counting white space -/

theorem filter_not_dropWhile (p : Nat → Bool) (s : List Nat) :
    (s.dropWhile p).filter (fun c => !p c) = s.filter (fun c => !p c) := by
  induction s with
  | nil => rfl
  | cons c cs ih =>
    by_cases hc : p c = true
    · simp [List.dropWhile_cons, List.filter_cons, hc, ih]
    · simp only [Bool.not_eq_true] at hc
      simp [List.dropWhile_cons, hc]

/-- Deleting the matches of `c+` deletes exactly the characters of class `c`. -/
theorem removeAll_plus (p : Nat → Bool) (s : List Nat) :
    removeAll ⟨p, [], p⟩ s = s.filter (fun c => !p c) := by
  generalize h : s.length = n
  induction n using Nat.strong_induction_on generalizing s with
  | _ n ih =>
    subst h
    cases s with
    | nil => simp [removeAll_nil]
    | cons c cs =>
      rw [removeAll_cons, matchAt_simple]
      by_cases hc : p c = true
      · simp only [hc, if_true, List.filter_cons, Bool.not_true, Bool.false_eq_true, if_false]
        rw [ih (cs.dropWhile p).length
          (by simp only [List.length_cons]
              exact Nat.lt_succ_of_le (List.dropWhile_sublist _).length_le) _ rfl]
        exact filter_not_dropWhile p cs
      · simp only [Bool.not_eq_true] at hc
        simp only [hc, Bool.false_eq_true, if_false, List.filter_cons, Bool.not_false, if_true]
        rw [ih cs.length (by simp) cs rfl]

/-- The matches of a single class `c` are the characters of that class. -/
theorem matchAll_single (p : Nat → Bool) (s : List Nat) :
    matchAll ⟨p, [], fun _ => false⟩ s = (s.filter p).map fun c => [c] := by
  induction s with
  | nil => simp [matchAll_nil]
  | cons c cs ih =>
    rw [matchAll_simple_cons]
    have hd : cs.dropWhile (fun _ => false) = cs := by
      cases cs <;> simp [List.dropWhile_cons]
    have ht : cs.takeWhile (fun _ => false) = [] := by
      cases cs <;> simp [List.takeWhile_cons]
    by_cases hc : p c = true
    · simp [hc, ih, List.filter_cons, hd, ht]
    · simp only [Bool.not_eq_true] at hc
      simp [hc, ih, List.filter_cons]

theorem cleanText_length (text : JSString) :
    (removeAll spaceRunPattern text).length = text.countP (fun c => !isWhiteSpace c) := by
  unfold spaceRunPattern
  rw [removeAll_plus, List.countP_eq_length_filter]

theorem spaces_eq_countP (text : JSString) :
    (match matchGlobal spacePattern text with
      | some ms => ms.length
      | none => ([] : List (List Nat)).length) = text.countP isWhiteSpace := by
  unfold matchGlobal spacePattern
  rw [matchAll_single, List.countP_eq_length_filter]
  cases h : text.filter isWhiteSpace <;> simp

theorem countP_not_space_le (text : JSString) :
    text.countP (fun c => !isWhiteSpace c) ≤ text.length := List.countP_le_length _

theorem countP_space_add (text : JSString) :
    text.countP isWhiteSpace + text.countP (fun c => !isWhiteSpace c) = text.length := by
  have := List.length_eq_countP_add_countP isWhiteSpace text
  rw [this]
  congr 1
  apply List.countP_congr
  intro c _
  simp

theorem digit_length (d : Nat) (h : d < 10) : (toString d).length = 1 := by
  interval_cases d <;> rfl

/-- C4: `getAverageWordLength` returns the number 0 when the word count is 0;
otherwise it returns the string with exactly one fractional digit that
denotes (number of non-white-space characters) / wordCount rounded to one
decimal place (for every text a JavaScript engine can hold: fewer than
`2 ^ 48` code units).  `getAverageWordLength("ab cd", 2)` is `2.0`, and the
average shown by `updateStats` is 0 whenever the word count is 0. -/
theorem getAverageWordLength_rounds_to_one_decimal :
    (∀ text : JSString, getAverageWordLength text 0 = JSValue.number 0) ∧
    (∀ (text : JSString) (wordCount : Nat), 0 < wordCount → text.length < 2 ^ 48 →
      ∃ n : Nat,
        getAverageWordLength text wordCount =
          JSValue.string (toString (n / 10) ++ "." ++ toString (n % 10)) ∧
        (toString (n % 10)).length = 1 ∧
        IsRoundedToOneDecimal n
          ((text.countP (fun c => !isWhiteSpace c) : ℚ) / wordCount)) ∧
    getAverageWordLength (js "ab cd") 2 = JSValue.string "2.0" ∧
    (∀ (engine : Option (Nat → Bool)) (text : JSString),
      (updateStats engine text).wordCount = 0 →
        (updateStats engine text).averageWordLength = JSValue.number 0) := by
  refine ⟨fun _ => rfl, ?_, by decide, ?_⟩
  · intro text wordCount hw hlen
    have hne : wordCount ≠ 0 := by omega
    refine ⟨toFixedTenths (divDouble (removeAll spaceRunPattern text).length wordCount),
      ?_, digit_length _ (Nat.mod_lt _ (by decide)), ?_⟩
    · simp [getAverageWordLength, hne, toFixed1, renderTenths]
    · rw [← cleanText_length]
      apply tenths_rounded _ _ hw
      have := countP_not_space_le text
      rw [cleanText_length]
      omega
  · intro engine text h
    simp only [updateStats] at h ⊢
    simp [getAverageWordLength, h]

theorem getAverageWordLength_rounds_to_one_decimal_witness :
    (0 < 3 ∧ (js "some words here").length < 2 ^ 48) ∧
    ∃ n : Nat,
      getAverageWordLength (js "some words here") 3 =
        JSValue.string (toString (n / 10) ++ "." ++ toString (n % 10)) ∧
      (toString (n % 10)).length = 1 ∧
      IsRoundedToOneDecimal n
        (((js "some words here").countP (fun c => !isWhiteSpace c) : ℚ) / (3 : Nat)) :=
  ⟨⟨by decide, by decide⟩,
   getAverageWordLength_rounds_to_one_decimal.2.1 (js "some words here") 3
     (by decide) (by decide)⟩

/-- C7: the snapshot computed by `updateStats` is the composition of the
individual operations on the unmodified text: the word count is `countWords`,
the character count is the length of the text (no trimming), the space count
is the number of white-space characters, the sentence and paragraph counts
are `countSentences` and `countParagraphs`, the average is
`getAverageWordLength` at the word count; the snapshot of the empty string
has every field equal to 0. -/
theorem updateStats_is_composition (engine : Option (Nat → Bool)) :
    (∀ text : JSString,
      updateStats engine text =
        { wordCount := countWords engine text
          charCount := text.length
          spaceCount := text.countP isWhiteSpace
          sentenceCount := countSentences text
          paragraphCount := countParagraphs text
          averageWordLength := getAverageWordLength text (countWords engine text) }) ∧
    updateStats engine (js "") = ⟨0, 0, 0, 0, 0, JSValue.number 0⟩ := by
  constructor
  · intro text
    unfold updateStats
    simp only [spaces_eq_countP]
  · cases engine <;> rfl

/-! ## The fallback path of `countWords` -/

theorem trim_no_space (s : JSString) (h : ∀ c ∈ s, isWhiteSpace c = false) : trim s = s := by
  have h1 : s.dropWhile isWhiteSpace = s := by
    cases s with
    | nil => rfl
    | cons c cs => simp [List.dropWhile_cons, h c (by simp)]
  have h2 : s.reverse.dropWhile isWhiteSpace = s.reverse := by
    cases hr : s.reverse with
    | nil => rfl
    | cons c cs =>
      have : c ∈ s := by
        rw [← List.mem_reverse, hr]; simp
      simp [List.dropWhile_cons, h c this]
  unfold trim
  rw [h1, h2, List.reverse_reverse]

theorem splitRegex_no_match (f st : Nat → Bool) (s : List Nat)
    (h : ∀ c ∈ s, f c = false) : splitRegex ⟨f, [], st⟩ s = [s] := by
  induction s with
  | nil => exact splitRegex_nil _
  | cons c cs ih =>
    rw [splitRegex_cons, matchAt_simple, h c (by simp)]
    simp only [Bool.false_eq_true, if_false]
    rw [ih (fun d hd => h d (by simp [hd]))]
    rfl

theorem countWords_fallback_token (text : JSString) (hne : text ≠ [])
    (h : ∀ c ∈ text, isWhiteSpace c = false) : countWords none text = 1 := by
  unfold countWords
  cases text with
  | nil => exact absurd rfl hne
  | cons a as =>
    simp only [List.isEmpty_cons, Bool.false_eq_true, if_false]
    rw [trim_no_space _ h]
    unfold spaceRunPattern
    rw [splitRegex_no_match _ _ _ h]
    simp [filterBoolean]

/-- C8: the fallback path of `countWords` (trim, split on white-space runs,
count the non-empty fragments) is not equivalent to the primary path: a
non-empty token without white space and without a letter (digits only,
punctuation only) counts 1 in the fallback and 0 in the primary path; in
particular `"123"` gives 0 by the primary path and 1 by the fallback. -/
theorem fallback_not_equivalent (L : Nat → Bool) :
    (∀ text : JSString, text ≠ [] → (∀ c ∈ text, isWhiteSpace c = false) →
      (∀ c ∈ codePoints text, L c = false) →
      countWords (some L) text = 0 ∧ countWords none text = 1) ∧
    (AsciiFaithful L →
      countWords (some L) (js "123") = 0 ∧ countWords none (js "123") = 1 ∧
      countWords (some L) (js "?!") = 0 ∧ countWords none (js "?!") = 1 ∧
      ∃ text : JSString, countWords (some L) text ≠ countWords none text) := by
  have general : ∀ text : JSString, text ≠ [] → (∀ c ∈ text, isWhiteSpace c = false) →
      (∀ c ∈ codePoints text, L c = false) →
      countWords (some L) text = 0 ∧ countWords none text = 1 := by
    intro text hne hws hL
    refine ⟨?_, countWords_fallback_token text hne hws⟩
    rw [countWords_eq_startsFrom, startsFrom_no_letter L _ hL]
  refine ⟨general, ?_⟩
  intro hA
  have h123 := general (js "123") (by decide) (by decide)
    (fun c hc => by
      have hlt : c < 128 := by revert c; decide
      rw [hA c hlt]
      revert c; decide)
  have hpunct := general (js "?!") (by decide) (by decide)
    (fun c hc => by
      have hlt : c < 128 := by revert c; decide
      rw [hA c hlt]
      revert c; decide)
  refine ⟨h123.1, h123.2, hpunct.1, hpunct.2, js "123", ?_⟩
  rw [h123.1, h123.2]
  decide

theorem fallback_not_equivalent_witness :
    (js "2024" ≠ [] ∧ (∀ c ∈ js "2024", isWhiteSpace c = false) ∧
      (∀ c ∈ codePoints (js "2024"), asciiLetter c = false)) ∧
    (countWords (some asciiLetter) (js "2024") = 0 ∧ countWords none (js "2024") = 1) ∧
    AsciiFaithful asciiLetter ∧
    countWords (some asciiLetter) (js "123") = 0 ∧ countWords none (js "123") = 1 :=
  ⟨⟨by decide, by decide, by decide⟩,
   (fallback_not_equivalent asciiLetter).1 (js "2024") (by decide) (by decide) (by decide),
   fun _ _ => rfl,
   ((fallback_not_equivalent asciiLetter).2 (fun _ _ => rfl)).1,
   ((fallback_not_equivalent asciiLetter).2 (fun _ _ => rfl)).2.1⟩

/-! ## Words, characters and the average -/

theorem updateStats_eq (engine : Option (Nat → Bool)) (text : JSString) :
    updateStats engine text =
      { wordCount := countWords engine text
        charCount := text.length
        spaceCount := text.countP isWhiteSpace
        sentenceCount := countSentences text
        paragraphCount := countParagraphs text
        averageWordLength := getAverageWordLength text (countWords engine text) } := by
  unfold updateStats
  simp only [spaces_eq_countP]

theorem takeWhile_congr_mem (p q : Nat → Bool) (s : List Nat) (h : ∀ c ∈ s, p c = q c) :
    s.takeWhile p = s.takeWhile q := by
  induction s with
  | nil => rfl
  | cons c cs ih =>
    simp only [List.takeWhile_cons, h c (by simp), ih (fun d hd => h d (by simp [hd]))]

theorem dropWhile_congr_mem (p q : Nat → Bool) (s : List Nat) (h : ∀ c ∈ s, p c = q c) :
    s.dropWhile p = s.dropWhile q := by
  induction s with
  | nil => rfl
  | cons c cs ih =>
    simp only [List.dropWhile_cons, h c (by simp), ih (fun d hd => h d (by simp [hd]))]

/-- The scan only looks at the letter class on the characters of the text. -/
theorem matchAll_word_congr (L L' : Nat → Bool) (s : List Nat)
    (h : ∀ c ∈ s, L c = L' c) : matchAll (wordPattern L) s = matchAll (wordPattern L') s := by
  generalize hn : s.length = n
  induction n using Nat.strong_induction_on generalizing s with
  | _ n ih =>
    subst hn
    cases s with
    | nil => simp [matchAll_nil]
    | cons c cs =>
      have hcs : ∀ d ∈ cs, isWordCont L d = isWordCont L' d := by
        intro d hd
        simp only [isWordCont, h d (by simp [hd])]
      unfold wordPattern
      rw [matchAll_simple_cons, matchAll_simple_cons, h c (by simp),
        takeWhile_congr_mem _ _ cs hcs, dropWhile_congr_mem _ _ cs hcs]
      have h1 := ih (cs.dropWhile (isWordCont L')).length
        (by simp only [List.length_cons]
            exact Nat.lt_succ_of_le (List.dropWhile_sublist _).length_le) _
        (fun d hd => h d (List.mem_cons_of_mem _ ((List.dropWhile_sublist _).subset hd))) rfl
      have h2 := ih cs.length (by simp) cs (fun d hd => h d (by simp [hd])) rfl
      unfold wordPattern at h1 h2
      rw [h1, h2]

theorem startsFrom_le_countP (L : Nat → Bool) (r : Bool) (s : List Nat) :
    startsFrom L r s ≤ s.countP L := by
  induction s generalizing r with
  | nil => simp [startsFrom]
  | cons c cs ih =>
    have := ih (L c || (r && isWordCont L c))
    simp only [startsFrom, List.countP_cons]
    by_cases hc : L c = true
    · simp only [hc, Bool.true_and, if_true] at this ⊢
      split <;> omega
    · simp only [Bool.not_eq_true] at hc
      simp only [hc, Bool.false_and, Bool.false_eq_true, if_false] at this ⊢
      omega

theorem isLead_not_space (a : Nat) (h : isLead a = true) : isWhiteSpace a = false := by
  simp only [isLead, Bool.and_eq_true, decide_eq_true_eq] at h
  simp only [isWhiteSpace, Bool.or_eq_false_iff, beq_eq_false_iff_ne, ne_eq, Bool.and_eq_false_imp,
    decide_eq_true_eq, decide_eq_false_iff_not, not_le]
  omega

theorem isTrail_not_space (a : Nat) (h : isTrail a = true) : isWhiteSpace a = false := by
  simp only [isTrail, Bool.and_eq_true, decide_eq_true_eq] at h
  simp only [isWhiteSpace, Bool.or_eq_false_iff, beq_eq_false_iff_ne, ne_eq, Bool.and_eq_false_imp,
    decide_eq_true_eq, decide_eq_false_iff_not, not_le]
  omega

/-- A letter code point occupies at least one code unit that is not white
space. -/
theorem letters_le_nonspace (L : Nat → Bool) (hL : LettersNotSpace L) (s : JSString) :
    (codePoints s).countP L ≤ s.countP (fun c => !isWhiteSpace c) := by
  generalize h : s.length = n
  induction n using Nat.strong_induction_on generalizing s with
  | _ n ih =>
    subst h
    match s with
    | [] => simp [codePoints]
    | [a] =>
      simp only [codePoints, List.countP_cons, List.countP_nil, Nat.zero_add]
      by_cases ha : L a = true
      · simp [ha, hL a ha]
      · simp only [Bool.not_eq_true] at ha
        simp [ha]
    | a :: b :: rest =>
      simp only [codePoints]
      by_cases hp : (isLead a && isTrail b) = true
      · simp only [hp, if_true, List.countP_cons]
        simp only [Bool.and_eq_true] at hp
        have h1 := ih rest.length (by simp only [List.length_cons]; omega) rest rfl
        simp only [isLead_not_space a hp.1, isTrail_not_space b hp.2, Bool.not_false, if_true]
        split <;> omega
      · simp only [hp, Bool.false_eq_true, if_false, List.countP_cons (a := a)]
        have h1 := ih (b :: rest).length (by simp) (b :: rest) rfl
        by_cases ha : L a = true
        · simp only [ha, hL a ha, Bool.not_false, if_true]
          omega
        · simp only [Bool.not_eq_true] at ha
          simp only [ha, Bool.false_eq_true, if_false]
          split <;> omega

theorem countWords_le_nonspace (L : Nat → Bool) (hL : LettersNotSpace L) (text : JSString) :
    countWords (some L) text ≤ text.countP (fun c => !isWhiteSpace c) := by
  rw [countWords_eq_startsFrom]
  exact le_trans (startsFrom_le_countP L false _) (letters_le_nonspace L hL text)

/-- C9: on the primary path the word count is at most the number of
non-white-space characters, which is the length of the text with its
white-space runs removed and equals the character count minus the space
count; hence a positive word count gives a reported average of at least 1.0.
The average is not bounded by the longest word: `"a 12345678"` has the single
word `a` and the average `9.0`. -/
theorem wordCount_le_nonspace_chars (L : Nat → Bool) :
    (LettersNotSpace L → ∀ text : JSString,
      countWords (some L) text ≤ text.countP (fun c => !isWhiteSpace c)) ∧
    (∀ (engine : Option (Nat → Bool)) (text : JSString),
      removeAll spaceRunPattern text = text.filter (fun c => !isWhiteSpace c) ∧
      (removeAll spaceRunPattern text).length = text.countP (fun c => !isWhiteSpace c) ∧
      text.countP (fun c => !isWhiteSpace c) =
        (updateStats engine text).charCount - (updateStats engine text).spaceCount ∧
      (updateStats engine text).spaceCount ≤ (updateStats engine text).charCount) ∧
    (LettersNotSpace L → ∀ text : JSString, text.length < 2 ^ 48 →
      0 < countWords (some L) text →
      ∃ n : Nat, 10 ≤ n ∧
        (updateStats (some L) text).averageWordLength =
          JSValue.string (toString (n / 10) ++ "." ++ toString (n % 10))) ∧
    (AsciiFaithful L →
      countWords (some L) (js "a 12345678") = 1 ∧
      matchAll (wordPattern L) (codePoints (js "a 12345678")) = [js "a"] ∧
      (updateStats (some L) (js "a 12345678")).averageWordLength = JSValue.string "9.0") := by
  refine ⟨fun hL text => countWords_le_nonspace L hL text, ?_, ?_, ?_⟩
  · intro engine text
    have h := countP_space_add text
    have e := updateStats_eq engine text
    refine ⟨removeAll_plus isWhiteSpace text, cleanText_length text, ?_, ?_⟩
    · rw [e]; simp only []; omega
    · rw [e]; simp only []; omega
  · intro hL text hlen hpos
    have hle := countWords_le_nonspace L hL text
    have hcl := countP_not_space_le text
    have hne : countWords (some L) text ≠ 0 := by omega
    refine ⟨toFixedTenths (divDouble (removeAll spaceRunPattern text).length
      (countWords (some L) text)), ?_, ?_⟩
    · have hint := tenths_nearest_int (removeAll spaceRunPattern text).length
        (countWords (some L) text) hpos (by rw [cleanText_length]; omega)
      rw [cleanText_length] at hint ⊢
      generalize toFixedTenths (divDouble (text.countP fun c => !isWhiteSpace c)
        (countWords (some L) text)) = n at hint
      by_contra hn
      have hn' : 2 * n + 1 ≤ 19 := by omega
      have h1 : (2 * n + 1) * countWords (some L) text ≤ 19 * countWords (some L) text :=
        Nat.mul_le_mul_right _ hn'
      omega
    · simp [updateStats, getAverageWordLength, hne, toFixed1, renderTenths]
  · intro hA
    have hcp : ∀ c ∈ codePoints (js "a 12345678"), L c = asciiLetter c := by
      intro c hc
      have hlt : c < 128 := by revert c; decide
      exact hA c hlt
    have hw : countWords (some L) (js "a 12345678") = 1 := by
      rw [countWords_eq_startsFrom, startsFrom_congr L asciiLetter false _ hcp]
      decide
    refine ⟨hw, ?_, ?_⟩
    · rw [matchAll_word_congr L asciiLetter _ hcp]
      decide
    · simp only [updateStats, hw]
      decide

theorem asciiLetter_not_space : LettersNotSpace asciiLetter := by
  intro c h
  simp only [asciiLetter, Bool.or_eq_true, Bool.and_eq_true, decide_eq_true_eq] at h
  simp only [isWhiteSpace, Bool.or_eq_false_iff, beq_eq_false_iff_ne, ne_eq, Bool.and_eq_false_imp,
    decide_eq_true_eq, decide_eq_false_iff_not, not_le]
  omega

theorem wordCount_le_nonspace_chars_witness :
    LettersNotSpace asciiLetter ∧ AsciiFaithful asciiLetter ∧
    (js "well, well").length < 2 ^ 48 ∧ 0 < countWords (some asciiLetter) (js "well, well") ∧
    countWords (some asciiLetter) (js "well, well") ≤
      (js "well, well").countP (fun c => !isWhiteSpace c) ∧
    (∃ n : Nat, 10 ≤ n ∧
      (updateStats (some asciiLetter) (js "well, well")).averageWordLength =
        JSValue.string (toString (n / 10) ++ "." ++ toString (n % 10))) ∧
    countWords (some asciiLetter) (js "a 12345678") = 1 :=
  ⟨asciiLetter_not_space, fun _ _ => rfl, by decide, by decide,
   (wordCount_le_nonspace_chars asciiLetter).1 asciiLetter_not_space (js "well, well"),
   (wordCount_le_nonspace_chars asciiLetter).2.2.1 asciiLetter_not_space (js "well, well")
     (by decide) (by decide),
   ((wordCount_le_nonspace_chars asciiLetter).2.2.2 (fun _ _ => rfl)).1⟩

/-! ## The debounce timer -/

theorem ticks_succ (engine : Option (Nat → Bool)) (k : Nat) (w : Widget) :
    ticks engine (k + 1) w = ticks engine k (step engine w Event.tick) := by
  simp [ticks, run, List.replicate_succ]

/-- A tick that reaches no due time only advances the clock. -/
theorem tick_idle (engine : Option (Nat → Bool)) (w : Widget)
    (h : ∀ e ∈ w.pending, w.now + 1 < e.2) :
    step engine w Event.tick = { w with now := w.now + 1 } := by
  have : (w.pending.filter fun e => decide (e.2 ≤ w.now + 1)) = [] := by
    rw [List.filter_eq_nil_iff]
    intro e he
    have := h e he
    simp only [decide_eq_true_eq, not_le]
    exact this
  simp only [step, this, fire, List.foldl_nil]

/-- The tick that reaches the due time of the only pending callback runs it. -/
theorem tick_fire (engine : Option (Nat → Bool)) (w : Widget) (id due : Nat)
    (hp : w.pending = [(id, due)]) (hdue : due ≤ w.now + 1) :
    step engine w Event.tick =
      { w with
        now := w.now + 1
        pending := []
        timer := none
        shown := updateStats engine w.value
        runs := w.runs ++ [w.value] } := by
  simp [step, fire, hp, hdue, List.filter_cons, onTimeout, runUpdate, clearTimeout]

theorem ticks_idle (engine : Option (Nat → Bool)) (k : Nat) (w : Widget)
    (h : ∀ e ∈ w.pending, w.now + k < e.2) :
    ticks engine k w = { w with now := w.now + k } := by
  induction k generalizing w with
  | zero => rfl
  | succ k ih =>
    rw [ticks_succ, tick_idle engine w (fun e he => by have := h e he; omega)]
    rw [ih _ (fun e he => by have := h e he; simp only []; omega)]
    simp only [Widget.mk.injEq, true_and, and_true]
    omega

theorem ticks_fire (engine : Option (Nat → Bool)) (k : Nat) (w : Widget) (id due : Nat)
    (hp : w.pending = [(id, due)]) (hnow : w.now < due) (hdue : due ≤ w.now + k) :
    ticks engine k w =
      { w with
        now := w.now + k
        pending := []
        timer := none
        shown := updateStats engine w.value
        runs := w.runs ++ [w.value] } := by
  induction k generalizing w with
  | zero => omega
  | succ k ih =>
    rw [ticks_succ]
    by_cases hd : due ≤ w.now + 1
    · rw [tick_fire engine w id due hp hd, ticks_idle engine k _ (by simp)]
      simp only [Widget.mk.injEq, true_and, and_true]
      omega
    · rw [tick_idle engine w (by rw [hp]; simp; omega)]
      rw [ih { w with now := w.now + 1 } hp (by simp only []; omega) (by simp only []; omega)]
      simp only [Widget.mk.injEq, true_and, and_true]
      omega

theorem Fresh.inv {w : Widget} (h : Fresh w) : TimerInv w := by
  obtain ⟨id, h1, h2, h3, h4⟩ := h
  refine ⟨by omega, Or.inr ⟨id, _, h1, h2, h3, h4, ?_, le_refl _⟩⟩
  simp [quietInterval]

theorem input_fresh (engine : Option (Nat → Bool)) (w : Widget) (hw : TimerInv w)
    (v : JSString) :
    step engine w (Event.input v) =
      { w with
        value := v
        timer := some w.nextId
        pending := [(w.nextId, w.now + quietInterval)]
        nextId := w.nextId + 1 } := by
  obtain ⟨hn, h | ⟨id, due, h1, h2, h3, h4, h5, h6⟩⟩ := hw
  · simp [step, onInput, setTimer, h.1, h.2]
  · have : id ≠ 0 := by omega
    simp [step, onInput, setTimer, h1, h2, this, clearTimeout]

theorem TimerInv.step (engine : Option (Nat → Bool)) {w : Widget} (hw : TimerInv w)
    (e : Event) : TimerInv (step engine w e) := by
  cases e with
  | input v =>
    rw [input_fresh engine w hw v]
    exact Fresh.inv ⟨w.nextId, rfl, rfl, hw.1, by simp⟩
  | clickCount => exact hw
  | clickClear => exact hw
  | tick =>
    obtain ⟨hn, h | ⟨id, due, h1, h2, h3, h4, h5, h6⟩⟩ := hw
    · rw [tick_idle engine w (by simp [h.2])]
      exact ⟨hn, Or.inl h⟩
    · by_cases hd : due ≤ w.now + 1
      · rw [tick_fire engine w id due h2 hd]
        exact ⟨hn, Or.inl ⟨rfl, rfl⟩⟩
      · rw [tick_idle engine w (by rw [h2]; simp; omega)]
        exact ⟨hn, Or.inr ⟨id, due, h1, h2, h3, h4, by simp only []; omega,
          by simp only []; omega⟩⟩

theorem init_inv (engine : Option (Nat → Bool)) (v0 : JSString) : TimerInv (init engine v0) :=
  ⟨by simp [init, runUpdate], Or.inl ⟨rfl, rfl⟩⟩

theorem run_inv (engine : Option (Nat → Bool)) (w : Widget) (hw : TimerInv w)
    (evs : List Event) : TimerInv (run engine w evs) := by
  induction evs generalizing w with
  | nil => exact hw
  | cons e es ih => exact ih _ (hw.step engine e)

theorem TimerInv.pending_le {w : Widget} (hw : TimerInv w) : w.pending.length ≤ 1 := by
  obtain ⟨_, h | ⟨id, due, _, h2, _⟩⟩ := hw
  · simp [h.2]
  · simp [h2]

theorem ticks_inv (engine : Option (Nat → Bool)) (k : Nat) (w : Widget) (hw : TimerInv w) :
    TimerInv (ticks engine k w) := run_inv engine w hw _

theorem burst_fold (engine : Option (Nat → Bool)) (rest : List (Nat × JSString)) :
    ∀ (w1 : Widget) (v : JSString), Fresh w1 → w1.value = v →
      (∀ g ∈ rest, g.1 < quietInterval) →
      Fresh (rest.foldl (fun w g => step engine (ticks engine g.1 w) (Event.input g.2)) w1) ∧
      (rest.foldl (fun w g => step engine (ticks engine g.1 w) (Event.input g.2)) w1).value =
        (v :: rest.map Prod.snd).getLast (List.cons_ne_nil _ _) ∧
      (rest.foldl (fun w g => step engine (ticks engine g.1 w) (Event.input g.2)) w1).runs =
        w1.runs := by
  induction rest with
  | nil =>
    intro w1 v hf hv _
    exact ⟨hf, by simpa using hv, rfl⟩
  | cons g rest ih =>
    intro w1 v hf hv hg
    have hg1 : g.1 < quietInterval := hg g (by simp)
    obtain ⟨id, h1, h2, h3, h4⟩ := hf
    have hidle : ticks engine g.1 w1 = { w1 with now := w1.now + g.1 } :=
      ticks_idle engine g.1 w1 (by rw [h2]; simp; omega)
    have hinv : TimerInv (ticks engine g.1 w1) :=
      ticks_inv engine g.1 w1 (Fresh.inv ⟨id, h1, h2, h3, h4⟩)
    have hstep := input_fresh engine (ticks engine g.1 w1) hinv g.2
    rw [List.foldl_cons]
    have hfresh2 : Fresh (step engine (ticks engine g.1 w1) (Event.input g.2)) := by
      rw [hstep]
      exact ⟨_, rfl, rfl, hinv.1, by simp⟩
    have hval2 : (step engine (ticks engine g.1 w1) (Event.input g.2)).value = g.2 := by
      rw [hstep]
    have hruns2 : (step engine (ticks engine g.1 w1) (Event.input g.2)).runs = w1.runs := by
      rw [hstep, hidle]
    obtain ⟨r1, r2, r3⟩ := ih _ g.2 hfresh2 hval2 (fun g' hg' => hg g' (by simp [hg']))
    refine ⟨r1, ?_, by rw [r3, hruns2]⟩
    rw [r2]
    simp [List.getLast_cons]

/-- C6: in every reachable state at most one debounce callback is pending
(the variable `timer` names it), and a notification leaves exactly the newly
scheduled callback pending, the previous one being cancelled.  A burst of
`N ≥ 1` notifications, each arriving less than 150 time units after the
previous one, runs no computation during the burst nor in the 149 units after
its last notification, and exactly one computation once 150 units have
passed, on the text of the last notification. -/
theorem debounce_runs_once (engine : Option (Nat → Bool)) (v0 : JSString) (evs : List Event) :
    TimerInv (run engine (init engine v0) evs) ∧
    (run engine (init engine v0) evs).pending.length ≤ 1 ∧
    (∀ v : JSString,
      (step engine (run engine (init engine v0) evs) (Event.input v)).pending =
        [((run engine (init engine v0) evs).nextId,
          (run engine (init engine v0) evs).now + quietInterval)]) ∧
    (∀ (first : JSString) (rest : List (Nat × JSString)),
      (∀ g ∈ rest, g.1 < quietInterval) →
      (burst engine (run engine (init engine v0) evs) first rest).runs =
        (run engine (init engine v0) evs).runs ∧
      (∀ k, k < quietInterval →
        (ticks engine k (burst engine (run engine (init engine v0) evs) first rest)).runs =
          (run engine (init engine v0) evs).runs) ∧
      (∀ k, quietInterval ≤ k →
        (ticks engine k (burst engine (run engine (init engine v0) evs) first rest)).runs =
          (run engine (init engine v0) evs).runs ++
            [(first :: rest.map Prod.snd).getLast (List.cons_ne_nil _ _)] ∧
        (ticks engine k (burst engine (run engine (init engine v0) evs) first rest)).shown =
          updateStats engine ((first :: rest.map Prod.snd).getLast (List.cons_ne_nil _ _)) ∧
        (ticks engine k (burst engine (run engine (init engine v0) evs) first rest)).pending =
          [] ∧
        (ticks engine k (burst engine (run engine (init engine v0) evs) first rest)).timer =
          none)) := by
  have hinv := run_inv engine (init engine v0) (init_inv engine v0) evs
  generalize run engine (init engine v0) evs = w at hinv ⊢
  refine ⟨hinv, hinv.pending_le, fun v => by rw [input_fresh engine w hinv v], ?_⟩
  intro first rest hrest
  have hstep := input_fresh engine w hinv first
  have hf1 : Fresh (step engine w (Event.input first)) := by
    rw [hstep]; exact ⟨_, rfl, rfl, hinv.1, by simp⟩
  have hv1 : (step engine w (Event.input first)).value = first := by rw [hstep]
  have hr1 : (step engine w (Event.input first)).runs = w.runs := by rw [hstep]
  obtain ⟨b1, b2, b3⟩ := burst_fold engine rest _ first hf1 hv1 hrest
  change Fresh (burst engine w first rest) at b1
  change (burst engine w first rest).value = _ at b2
  change (burst engine w first rest).runs = _ at b3
  rw [hr1] at b3
  generalize burst engine w first rest = w' at b1 b2 b3 ⊢
  obtain ⟨id, f1, f2, f3, f4⟩ := b1
  refine ⟨b3, ?_, ?_⟩
  · intro k hk
    rw [ticks_idle engine k w' (by rw [f2]; simp; omega)]
    exact b3
  · intro k hk
    rw [ticks_fire engine k w' id _ f2 (by simp [quietInterval]) (by omega)]
    simp only [b2, b3, and_self]

theorem debounce_runs_once_witness :
    (∀ g ∈ [(10, js "he"), (149, js "hey")], g.1 < quietInterval) ∧
    (149 < quietInterval ∧ quietInterval ≤ 150) ∧
    (ticks (some asciiLetter) 149
      (burst (some asciiLetter) (run (some asciiLetter) (init (some asciiLetter) (js "")) []) (js "h")
        [(10, js "he"), (149, js "hey")])).runs =
      (run (some asciiLetter) (init (some asciiLetter) (js "")) []).runs ∧
    (ticks (some asciiLetter) 150
      (burst (some asciiLetter) (run (some asciiLetter) (init (some asciiLetter) (js "")) []) (js "h")
        [(10, js "he"), (149, js "hey")])).runs =
      (run (some asciiLetter) (init (some asciiLetter) (js "")) []).runs ++
        [(js "h" :: [(10, js "he"), (149, js "hey")].map Prod.snd).getLast
          (List.cons_ne_nil _ _)] :=
  ⟨by decide, by decide,
   ((debounce_runs_once (some asciiLetter) (js "") []).2.2.2 (js "h") [(10, js "he"), (149, js "hey")]
      (by decide)).2.1 149 (by decide),
   (((debounce_runs_once (some asciiLetter) (js "") []).2.2.2 (js "h") [(10, js "he"), (149, js "hey")]
      (by decide)).2.2 150 (by decide)).1⟩

/-- C5 (as the code behaves): a click on the Count button runs `updateStats`
at once on the current text and changes nothing else: the variable `timer`
and the table of scheduled callbacks are untouched.  So in a reachable state
with a pending debounced computation the click does not cancel it: it stays
pending until its due time, then runs once more on the text of that moment,
after which no timer is pending. -/
theorem count_click_keeps_timer (engine : Option (Nat → Bool)) :
    (∀ w : Widget,
      step engine w Event.clickCount =
        { w with shown := updateStats engine w.value, runs := w.runs ++ [w.value] }) ∧
    (∀ (v0 : JSString) (evs : List Event) (id due : Nat),
      (run engine (init engine v0) evs).pending = [(id, due)] →
      (step engine (run engine (init engine v0) evs) Event.clickCount).pending = [(id, due)] ∧
      (step engine (run engine (init engine v0) evs) Event.clickCount).timer = some id ∧
      (∀ k, (run engine (init engine v0) evs).now + k < due →
        (ticks engine k (step engine (run engine (init engine v0) evs) Event.clickCount)).runs =
          (run engine (init engine v0) evs).runs ++ [(run engine (init engine v0) evs).value]) ∧
      (∀ k, due ≤ (run engine (init engine v0) evs).now + k →
        (ticks engine k (step engine (run engine (init engine v0) evs) Event.clickCount)).runs =
          (run engine (init engine v0) evs).runs ++
            [(run engine (init engine v0) evs).value, (run engine (init engine v0) evs).value] ∧
        (ticks engine k (step engine (run engine (init engine v0) evs)
          Event.clickCount)).pending = [] ∧
        (ticks engine k (step engine (run engine (init engine v0) evs)
          Event.clickCount)).timer = none)) := by
  refine ⟨fun w => rfl, ?_⟩
  intro v0 evs id due hp
  have hinv := run_inv engine (init engine v0) (init_inv engine v0) evs
  generalize run engine (init engine v0) evs = w at hinv hp ⊢
  obtain ⟨_, h | ⟨id', due', h1, h2, h3, h4, h5, h6⟩⟩ := hinv
  · rw [h.2] at hp; simp at hp
  · rw [h2] at hp
    simp only [List.cons.injEq, Prod.mk.injEq, and_true] at hp
    obtain ⟨rfl, rfl⟩ := hp
    refine ⟨h2, h1, ?_, ?_⟩
    · intro k hk
      rw [ticks_idle engine k _ (by simp [step, runUpdate, h2]; omega)]
      rfl
    · intro k hk
      rw [ticks_fire engine k _ id' due' (by simp [step, runUpdate, h2])
        (by simp [step, runUpdate]; omega) (by simp [step, runUpdate]; omega)]
      simp [step, runUpdate]

theorem count_click_keeps_timer_witness :
    (run (some asciiLetter) (init (some asciiLetter) (js "")) [Event.input (js "a")]).pending = [(1, 150)] ∧
    (0 + 150 : Nat) ≤ (run (some asciiLetter) (init (some asciiLetter) (js "")) [Event.input (js "a")]).now + 150 ∧
    (ticks (some asciiLetter) 150
      (step (some asciiLetter) (run (some asciiLetter) (init (some asciiLetter) (js "")) [Event.input (js "a")]) Event.clickCount)).runs =
      (run (some asciiLetter) (init (some asciiLetter) (js "")) [Event.input (js "a")]).runs ++
        [(run (some asciiLetter) (init (some asciiLetter) (js "")) [Event.input (js "a")]).value,
          (run (some asciiLetter) (init (some asciiLetter) (js "")) [Event.input (js "a")]).value] :=
  ⟨by decide, by decide,
   (((count_click_keeps_timer (some asciiLetter)).2 (js "") [Event.input (js "a")] 1 150 (by decide)).2.2.2
      150 (by decide)).1⟩

/-- C5 (as the specification states it) fails: after one text-change
notification a debounced computation is pending; the click on the Count button
leaves it pending, and 150 time units later it runs, although no new
notification has arrived. -/
theorem count_click_does_not_cancel :
    (run (some asciiLetter) (init (some asciiLetter) (js "")) [Event.input (js "a")]).pending ≠ [] ∧
    (step (some asciiLetter) (run (some asciiLetter) (init (some asciiLetter) (js "")) [Event.input (js "a")])
      Event.clickCount).pending ≠ [] ∧
    (step (some asciiLetter) (run (some asciiLetter) (init (some asciiLetter) (js "")) [Event.input (js "a")])
      Event.clickCount).timer ≠ none ∧
    (ticks (some asciiLetter) 150 (step (some asciiLetter) (run (some asciiLetter) (init (some asciiLetter) (js "")) [Event.input (js "a")])
      Event.clickCount)).runs ≠
      (step (some asciiLetter) (run (some asciiLetter) (init (some asciiLetter) (js "")) [Event.input (js "a")]) Event.clickCount).runs := by
  refine ⟨by decide, by decide, by decide, ?_⟩
  rw [ticks_fire (some asciiLetter) 150 _ 1 150 (by decide) (by decide) (by decide)]
  decide

end WordCount
namespace Cart

/-! ## The shopping cart -/

theorem categories_eq : categories = product := by decide

/-- The loop of `displaycart` over a cart of product copies leaves the total
element showing the running total of the last item. -/
theorem displayLoop (cart : List CartItem) (h : AllCopies cart) (t : Nat) (pg : Page) :
    cart.foldl displayStep (some t, pg) =
    (some (t + priceSum cart),
      { pg with
        total := if cart.length = 0 then pg.total
          else " " ++ toString (t + priceSum cart) ++ ".00" }) := by
  induction cart generalizing t pg with
  | nil => simp [priceSum]
  | cons item rest ih =>
    obtain ⟨p, _, rfl⟩ := h item (by simp)
    have hrest : AllCopies rest := fun i hi => h i (by simp [hi])
    have hs : displayStep (some t, pg) (some p) =
        (some (t + p.price),
          { pg with total := " " ++ showNumber (some (t + p.price)) ++ ".00" }) := rfl
    rw [List.foldl_cons, hs, ih hrest]
    have e : t + p.price + priceSum rest = t + priceSum (some p :: rest) := by
      simp [priceSum]; omega
    rw [e]
    by_cases hr : rest.length = 0
    · have : rest = [] := List.length_eq_zero.mp hr
      subst this
      simp [showNumber, priceSum]
    · simp [hr]

theorem displayLoop_cart (cart : List CartItem) (acc : Option Nat × Page) :
    (cart.foldl displayStep acc).2.cart = acc.2.cart := by
  induction cart generalizing acc with
  | nil => rfl
  | cons i l ih => rw [List.foldl_cons, ih]; rfl

theorem displaycart_cart (pg : Page) : (displaycart pg).cart = pg.cart := by
  unfold displaycart
  by_cases hl : pg.cart.length = 0
  · simp only [hl, if_true]
  · simp only [hl, if_false]
    rw [displayLoop_cart]

theorem displaycart_eq (pg : Page) (h : AllCopies pg.cart) :
    displaycart pg =
      { cart := pg.cart, count := toString pg.cart.length, total := totalText pg.cart } := by
  unfold displaycart totalText
  by_cases hl : pg.cart.length = 0
  · simp only [hl, if_true]
    rfl
  · simp only [hl, if_false]
    rw [displayLoop pg.cart h]
    simp [hl]

theorem product_get (a : Nat) (h : a < 12) : ∃ p ∈ product, product[a]? = some p := by
  have hlen : a < product.length := by simpa [product] using h
  exact ⟨product[a], List.getElem_mem _, List.getElem?_eq_getElem hlen⟩

theorem AllCopies.append_product {cart : List CartItem} (h : AllCopies cart) (a : Nat)
    (ha : a < 12) : AllCopies (cart ++ [categories[a]?]) := by
  intro item hi
  rw [List.mem_append] at hi
  rcases hi with hi | hi
  · exact h item hi
  · obtain ⟨p, hp, hpa⟩ := product_get a ha
    rw [categories_eq, hpa] at hi
    exact ⟨p, hp, by simpa using hi⟩

theorem AllCopies.eraseIdx {cart : List CartItem} (h : AllCopies cart) (j : Nat) :
    AllCopies (cart.eraseIdx j) :=
  fun item hi => h item ((List.eraseIdx_sublist cart j).subset hi)

theorem apply_shows (pg : Page) (op : Op) (h : AllCopies pg.cart) (hv : op.valid pg) :
    Shows (apply pg op) := by
  cases op with
  | add a =>
    have h' := h.append_product a hv
    simp only [apply, addtocart]
    rw [displaycart_eq _ h']
    exact ⟨h', rfl, rfl⟩
  | del j =>
    have h' := h.eraseIdx j
    simp only [apply, delElement]
    rw [displaycart_eq _ h']
    exact ⟨h', rfl, rfl⟩

theorem run_shows (ops : List Op) (pg : Page) (h : Shows pg) (hv : ValidFrom pg ops) :
    Shows (ops.foldl apply pg) := by
  induction ops generalizing pg with
  | nil => exact h
  | cons op ops ih =>
    rw [List.foldl_cons]
    exact ih _ (apply_shows pg op h.1 hv.1) hv.2

/-- C10: starting from the empty cart, after every sequence of `addtocart(a)`
with `a < 12` and `delElement(j)` with `j` a position of the cart, the count
element shows the length of the cart and the total element shows the sum of
the prices of the items in the cart (`$ 0.00` for the empty cart); before the
first click the two elements show the static markup.  `addtocart(a)` appends
a copy of the product at position `a` (the position, not the `id`, which
occurs more than once) and keeps the earlier items; `delElement(j)` removes
exactly the item at position `j` and keeps the order of the others. -/
theorem cart_display_matches_cart (count0 total0 : String) :
    (∀ ops : List Op, ValidFrom (start count0 total0) ops →
      (ops ≠ [] ∨ (count0 = toString 0 ∧ total0 = "$ 0.00")) →
      (ops.foldl apply (start count0 total0)).count =
        toString (ops.foldl apply (start count0 total0)).cart.length ∧
      (ops.foldl apply (start count0 total0)).total =
        totalText (ops.foldl apply (start count0 total0)).cart ∧
      ∀ item ∈ (ops.foldl apply (start count0 total0)).cart, ∃ p ∈ product, item = some p) ∧
    (∀ (pg : Page) (a : Nat), a < 12 →
      ∃ p, product[a]? = some p ∧ (addtocart a pg).cart = pg.cart ++ [some p]) ∧
    (∀ (pg : Page) (j : Nat), j < pg.cart.length →
      (delElement j pg).cart = pg.cart.take j ++ pg.cart.drop (j + 1) ∧
      (delElement j pg).cart.length + 1 = pg.cart.length) ∧
    ((product[6]?).map Product.id = some 6 ∧ (product[8]?).map Product.id = some 6 ∧
      (addtocart 8 (start count0 total0)).cart = [some ⟨6, "images/65.jpg", "Dress", 2600⟩] ∧
      (addtocart 8 (start count0 total0)).total = " 2600.00") := by
  have hstart : AllCopies (start count0 total0).cart := by
    intro item hi
    simp [start] at hi
  have hcart := displaycart_cart
  refine ⟨?_, ?_, ?_, ?_⟩
  · intro ops hv hne
    have hshows : Shows (ops.foldl apply (start count0 total0)) := by
      cases ops with
      | nil =>
        rcases hne with hne | ⟨h1, h2⟩
        · exact absurd rfl hne
        · exact ⟨hstart, by simp [start, h1], by simp [start, h2, totalText]⟩
      | cons op ops =>
        rw [List.foldl_cons]
        exact run_shows ops _ (apply_shows _ op hstart hv.1) hv.2
    exact ⟨hshows.2.1, hshows.2.2, hshows.1⟩
  · intro pg a ha
    obtain ⟨p, _, hpa⟩ := product_get a ha
    refine ⟨p, hpa, ?_⟩
    simp only [addtocart, hcart, categories_eq, hpa]
  · intro pg j hj
    simp only [delElement, hcart]
    refine ⟨List.eraseIdx_eq_take_drop_succ _ _, ?_⟩
    rw [List.length_eraseIdx, if_pos hj]
    omega
  · refine ⟨by decide, by decide, ?_, ?_⟩
    · simp only [addtocart, hcart, start]
      decide
    · rw [addtocart, displaycart_eq _ (hstart.append_product 8 (by decide))]
      simp only [start]
      decide

theorem cart_display_matches_cart_witness :
    ValidFrom (start "" "") [Op.add 8, Op.add 0, Op.del 0] ∧
    ([Op.add 8, Op.add 0, Op.del 0] ≠ [] ∨ (("" : String) = toString 0 ∧ ("" : String) = "$ 0.00")) ∧
    ([Op.add 8, Op.add 0, Op.del 0].foldl apply (start "" "")).total =
      totalText ([Op.add 8, Op.add 0, Op.del 0].foldl apply (start "" "")).cart ∧
    (1 < 12 ∧ ∃ p, product[1]? = some p ∧
      (addtocart 1 (start "" "")).cart = (start "" "").cart ++ [some p]) ∧
    ((0 < (addtocart 1 (start "" "")).cart.length) ∧
      (delElement 0 (addtocart 1 (start "" ""))).cart.length + 1 =
        (addtocart 1 (start "" "")).cart.length) :=
  ⟨by decide, Or.inl (by decide),
   ((cart_display_matches_cart "" "").1 [Op.add 8, Op.add 0, Op.del 0] (by decide)
      (Or.inl (by decide))).2.1,
   ⟨by decide, (cart_display_matches_cart "" "").2.1 (start "" "") 1 (by decide)⟩,
   ⟨by decide,
    ((cart_display_matches_cart "" "").2.2.1 (addtocart 1 (start "" "")) 0 (by decide)).2⟩⟩

end Cart
